import Mathlib

/-!
# Graphite compatibility handlers of tgres (`http/graphite.go`)

A shallow embedding of the Go source file `http/graphite.go`:

* `quoteIdentifiers`, with the regular expression it compiles, Go's
  `FindAllString`, `strings.Replace` and the `%q` verb;
* `parseTime`, with `strconv.ParseInt`;
* `GraphiteRenderHandler`, with the response it writes;
* `GraphiteMetricsFindHandler`, with the body it writes.

Go strings are modelled as `String` / `List Char`. Every character class of
the regular expression is ASCII, so the characters outside ASCII behave like
any other character that no class accepts.
-/

namespace Graphite

/-! ## Character classes of the regular expression -/

/-- The class `\w` of Go's `regexp`: ASCII letters, digits and underscore. -/
def isWord (c : Char) : Bool := c.isAlphanum || c == '_'

/-- The class `[\w*]`. -/
def isIdentEdge (c : Char) : Bool := isWord c || c == '*'

/-- The class `[\w\-.*]`. -/
def isIdentChar (c : Char) : Bool := isWord c || c == '-' || c == '.' || c == '*'

/-- The class `[\w\-.*,]`. -/
def isSetChar (c : Char) : Bool :=
  isWord c || c == '-' || c == '.' || c == '*' || c == ','

/-! ## A backtracking matcher with Go's leftmost-first preference -/

/-- The fragment of regular expressions used by `quoteIdentifiers`: one
character of a class, concatenation, the greedy `?` and the greedy `*` of a
class. Capture groups play no role in `FindAllString` and are left out. -/
inductive Re where
  | cls (p : Char → Bool)
  | seq (a b : Re)
  | opt (a : Re)
  | star (p : Char → Bool)

/-- Greedy `*` of a character class: consume the longest run first and give
characters back one at a time until the continuation accepts. -/
def starRun {α : Type} (p : Char → Bool) (k : List Char → Option α) :
    List Char → Option α
  | [] => k []
  | c :: cs =>
    if p c then
      match starRun p k cs with
      | some r => some r
      | none => k (c :: cs)
    else k (c :: cs)

/-- Run a regular expression at the head of the input, passing what is left
to the continuation `k`. The first success in preference order is
returned, which is the match `regexp` reports (leftmost-first semantics). -/
def Re.run {α : Type} : Re → (List Char → Option α) → List Char → Option α
  | .cls p, k, s =>
    match s with
    | [] => none
    | c :: cs => if p c then k cs else none
  | .seq a b, k, s => a.run (b.run k) s
  | .opt a, k, s =>
    match a.run k s with
    | some r => some r
    | none => k s
  | .star p, k, s => starRun p k s

/-- A single literal character. -/
def Re.chr (c : Char) : Re := .cls (fun x => x == c)

/-- The pattern
`("?[\w*][\w\-.*]*({[\w\-.*,]*})?[\w\-.*]*[\w*]"?)` of `quoteIdentifiers`. -/
def identRe : Re :=
  .seq (.opt (Re.chr '"')) <|
  .seq (.cls isIdentEdge) <|
  .seq (.star isIdentChar) <|
  .seq (.opt (.seq (Re.chr '{') (.seq (.star isSetChar) (Re.chr '}')))) <|
  .seq (.star isIdentChar) <|
  .seq (.cls isIdentEdge) <|
  .opt (Re.chr '"')

/-- The length of the match of `identRe` anchored at the head of `s`, if
there is one. -/
def matchLen (s : List Char) : Option Nat :=
  identRe.run (fun rest => some (s.length - rest.length)) s

/-- The scanning loop of `FindAllString(s, -1)`: `skip` counts the characters
of the current match still to be stepped over. At a free position the
pattern is tried; a match is delivered and the scan resumes at its end, and
otherwise the scan moves one character on. -/
def findAllAux : Nat → List Char → List (List Char)
  | _, [] => []
  | skip + 1, _ :: cs => findAllAux skip cs
  | 0, c :: cs =>
    match matchLen (c :: cs) with
    | some n => (c :: cs).take n :: findAllAux (n - 1) cs
    | none => findAllAux 0 cs

/-- The call `regexp.MustCompile(...).FindAllString(target, -1)`. -/
def findAll (s : List Char) : List (List Char) := findAllAux 0 s

/-! ## `strings.Contains`, `strings.HasPrefix`, `strings.Replace`, `%q` -/

/-- The test `strings.Contains(part, ".")`. -/
def containsDot (part : List Char) : Bool := part.contains '.'

/-- The test `strings.HasPrefix(part, "\"")`. -/
def hasQuotePrefix (part : List Char) : Bool :=
  match part with
  | '"' :: _ => true
  | _ => false

/-- The loop of `strings.Replace(s, old, new, -1)` for a non-empty `old`:
occurrences are taken from left to right without overlap. `skip` counts the
characters of the occurrence just replaced that are still to be dropped. -/
def replaceAux (old new : List Char) : Nat → List Char → List Char
  | _, [] => []
  | skip + 1, _ :: cs => replaceAux old new skip cs
  | 0, c :: cs =>
    if old.isPrefixOf (c :: cs) then new ++ replaceAux old new (old.length - 1) cs
    else c :: replaceAux old new 0 cs

/-- The call `strings.Replace(s, old, new, -1)`, for a non-empty `old`. -/
def replaceAll (s old new : List Char) : List Char := replaceAux old new 0 s

/-- The body of a `%q` literal for text made of printable ASCII: the double
quote and the backslash are escaped with a backslash. -/
def escapeChars : List Char → List Char
  | [] => []
  | c :: cs =>
    if c = '"' ∨ c = '\\' then '\\' :: c :: escapeChars cs else c :: escapeChars cs

/-- The text of `fmt.Sprintf("%q", part)`, for `part` of printable ASCII (all
that the pattern can match). -/
def goQuote (part : List Char) : List Char := '"' :: escapeChars part ++ ['"']

/-! ## `quoteIdentifiers` -/

/-- The first part, in match order, that contains a dot and does not start
with a double quote: the part at which the `for` loop of `quoteIdentifiers`
substitutes and breaks. -/
def firstPart (target : List Char) : Option (List Char) :=
  (findAll target).find? (fun part => containsDot part && !hasQuotePrefix part)

/-- One pass of `quoteIdentifiers` followed by its recursive calls, at most
`fuel` passes deep; `none` when the passes are used up. -/
def quoteIdentifiersFuel : Nat → List Char → Option (List Char)
  | 0, _ => none
  | fuel + 1, target =>
    match firstPart target with
    | none => some target
    | some part => quoteIdentifiersFuel fuel (replaceAll target part (goQuote part))

/-- The number of double quotes still missing in front of the characters of
the class `[\w*]`: such a character counts 2 with no double quote right
before it, 1 with exactly one and 0 with two or more. `q` is the number of
double quotes that end the text read so far, capped at 2. -/
def quoteWeightAux : Nat → List Char → Nat
  | _, [] => 0
  | q, c :: cs =>
    if c = '"' then quoteWeightAux (min 2 (q + 1)) cs
    else (if isIdentEdge c then 2 - q else 0) + quoteWeightAux 0 cs

/-- The weight of a whole target; each pass of `quoteIdentifiers` that
substitutes lowers it (`quoteWeight_replace_lt`). -/
def quoteWeight (target : List Char) : Nat := quoteWeightAux 0 target

/-- The function `quoteIdentifiers` on character lists. The recursion of the
source is unrolled `quoteWeight target + 1` passes deep, which is always
enough (`quoteIdentifiersFuel_terminates`), so the fallback is never taken. -/
def quoteIdentifiersChars (target : List Char) : List Char :=
  match quoteIdentifiersFuel (quoteWeight target + 1) target with
  | some result => result
  | none => target

/-- The function `quoteIdentifiers` of the source. -/
def quoteIdentifiers (target : String) : String :=
  String.mk (quoteIdentifiersChars target.data)

/-! ## Time, durations and numbers -/

/-- A `time.Duration`: a count of nanoseconds held in an `int64`. -/
abbrev Duration := Int

/-- Reduction of an integer to the range of `int64` (two's complement). -/
def wrapInt64 (i : Int) : Int := (i + 2 ^ 63) % 2 ^ 64 - 2 ^ 63

/-- A `time.Time` without its monotonic clock reading, named by its
nanoseconds since the Unix epoch. Go holds the whole seconds in an `int64`
counted from January 1 of year 1 (`Time.ext`) and the nanoseconds within the
second (`Time.nsec`); `Add` and `Unix` below work on these two as package
`time` does, overflow included, so two values that differ by a multiple of
2^64 seconds stand for the same Go value. -/
structure Time where
  unixNano : Int
  deriving DecidableEq, Repr

/-- The constant `unixToInternal` of package `time`: the seconds from
January 1 of year 1 to the Unix epoch; `internalToUnix` is its negative. -/
def unixToInternal : Int := 62135596800

/-- The seconds counter of a time: the seconds since January 1 of year 1, in
an `int64`. -/
def Time.ext (t : Time) : Int :=
  wrapInt64 (t.unixNano.fdiv 1000000000 + unixToInternal)

/-- The nanoseconds of a time within its second, from 0 to 999999999. -/
def Time.nsec (t : Time) : Int := t.unixNano.fmod 1000000000

/-- The time with the given seconds counter and nanoseconds. -/
def Time.ofParts (ext nsec : Int) : Time :=
  ⟨(ext - unixToInternal) * 1000000000 + nsec⟩

/-- The call `time.Unix(sec, 0)`: the counter is `sec + unixToInternal` in
`int64` and the nanoseconds are 0. -/
def Time.ofUnix (sec : Int) : Time := ⟨sec * 1000000000⟩

/-- The method `addSec` of package `time` on the seconds counter: the sum in
`int64`, and when the sum overflows the largest counter for a positive `d`
and its negative for a negative `d`. -/
def addSec (ext d : Int) : Int :=
  let sum := wrapInt64 (ext + d)
  if decide (sum > ext) = decide (d > 0) then sum
  else if d > 0 then 2 ^ 63 - 1
  else -(2 ^ 63 - 1)

/-- The method `t.Add(d)`: the duration is split into whole seconds and
nanoseconds, both rounded towards zero, the nanoseconds are brought back
into the second, and the seconds are added by `addSec`. -/
def Time.Add (t : Time) (d : Duration) : Time :=
  let dsec := d.tdiv 1000000000
  let nsec := t.nsec + d.tmod 1000000000
  if nsec ≥ 1000000000 then Time.ofParts (addSec t.ext (dsec + 1)) (nsec - 1000000000)
  else if nsec < 0 then Time.ofParts (addSec t.ext (dsec - 1)) (nsec + 1000000000)
  else Time.ofParts (addSec t.ext dsec) nsec

/-- The method `t.Unix()`: the counter plus `internalToUnix`, in `int64`. -/
def Time.Unix (t : Time) : Int := wrapInt64 (t.ext - unixToInternal)

/-- Whether the seconds of a time fit an `int64` both counted from the Unix
epoch and counted from January 1 of year 1; on such times no counter of
package `time` overflows. -/
def Time.inRange (t : Time) : Bool :=
  decide (-(2 ^ 63) ≤ t.unixNano.fdiv 1000000000) &&
    decide (t.unixNano.fdiv 1000000000 + unixToInternal < 2 ^ 63)

/-- A `float64`, by the fields of its IEEE 754 encoding: sign bit, 11-bit
biased exponent, 52-bit mantissa. -/
structure Float64 where
  sign : Bool
  exponent : Nat
  mantissa : Nat
  deriving DecidableEq, Repr

/-- The function `math.IsNaN`. -/
def Float64.IsNaN (f : Float64) : Bool := f.exponent == 2047 && f.mantissa != 0

/-- The function `math.IsInf(f, sign)`: positive infinity when `sign >= 0`,
negative infinity when `sign <= 0`. -/
def Float64.IsInf (f : Float64) (sign : Int) : Bool :=
  f.exponent == 2047 && f.mantissa == 0 &&
    ((decide (0 ≤ sign) && !f.sign) || (decide (sign ≤ 0) && f.sign))

/-- The two ways `strconv` rejects a number. -/
inductive NumError where
  | ErrSyntax
  | ErrRange
  deriving DecidableEq, Repr

/-- The digit loop of `strconv.ParseUint(s, 10, 64)`, `n` being the value
read so far. -/
def parseUintLoop : List Char → Nat → Except NumError Nat
  | [], n => .ok n
  | c :: cs, n =>
    if c.isDigit then
      if 1844674407370955162 ≤ n then .error .ErrRange
      else
        let n1 := n * 10 + (c.toNat - 48)
        if 18446744073709551615 < n1 then .error .ErrRange
        else parseUintLoop cs n1
    else .error .ErrSyntax

/-- The function `strconv.ParseUint(s, 10, 64)`. -/
def ParseUint (s : List Char) : Except NumError Nat :=
  match s with
  | [] => .error .ErrSyntax
  | _ => parseUintLoop s 0

/-- The rest of `strconv.ParseInt` once the sign is read. -/
def parseIntSigned (neg : Bool) (digits : List Char) : Except NumError Int :=
  match ParseUint digits with
  | .error .ErrSyntax => .error .ErrSyntax
  | .error .ErrRange => .error .ErrRange
  | .ok un =>
    if !neg && 9223372036854775808 ≤ un then .error .ErrRange
    else if neg && 9223372036854775808 < un then .error .ErrRange
    else .ok (if neg then -(un : Int) else (un : Int))

/-- The function `strconv.ParseInt(s, 10, 64)`. -/
def ParseInt (s : String) : Except NumError Int :=
  match s.data with
  | [] => .error .ErrSyntax
  | '+' :: cs => parseIntSigned false cs
  | '-' :: cs => parseIntSigned true cs
  | cs => parseIntSigned false cs

/-- The function `strconv.Atoi` on a platform whose `int` has 64 bits; its
fast path for short inputs returns what `ParseInt(s, 10, 0)` returns. -/
def Atoi (s : String) : Except NumError Int := ParseInt s

/-- The text `%v` prints for an integer. -/
def fmtInt (i : Int) : String := toString i

/-! ## The collaborators of the handlers -/

/-- Modelled from the spec: the interface `dsl.Series` (package `dsl` is not
part of the source at hand). A series is a finite forward-only sequence of
`(timestamp, value)` pairs, which the cursor (`Next`, `CurrentTime`,
`CurrentValue`) yields in order, with a fixed step and an optional alias. -/
structure Series where
  points : List (Time × Float64)
  Step : Duration
  Alias : String

/-- Modelled from the spec: the type `dsl.SeriesMap`, a mapping from series
name to series, given by its entries. -/
abbrev SeriesMap := List (String × Series)

/-- Lexicographic order of two strings, character by character. -/
def lexLe : List Char → List Char → Bool
  | [], _ => true
  | _ :: _, [] => false
  | a :: as, b :: bs => decide (a.toNat < b.toNat) || (a == b && lexLe as bs)

/-- Insertion of a name into a list of names sorted by `lexLe`. -/
def insertName (name : String) : List String → List String
  | [] => [name]
  | x :: xs => if lexLe name.data x.data then name :: x :: xs else x :: insertName name xs

/-- Modelled from the spec: the method `SeriesMap.SortedKeys` (package `dsl`
is not part of the source at hand), the names of the collection in
lexicographic order. -/
def SortedKeys (m : SeriesMap) : List String :=
  (m.map Prod.fst).foldr insertName []

/-- The collaborators a request is served with: the duration parser
`misc.BetterParseDuration`, the query engine `dsl.ParseDsl` (called with the
query text, the two instants and the point count), the text `%v` prints for
a `float64`, and the readings of `time.Now()` taken while `from` is parsed,
while `until` is parsed, and when a missing `until` is defaulted. -/
structure Env where
  BetterParseDuration : String → Option Duration
  ParseDsl : String → Time → Time → Int → Except String SeriesMap
  fmtFloat : Float64 → String
  nowFrom : Time
  nowUntil : Time
  nowDefault : Time

/-! ## `parseTime` -/

/-- The two errors of `parseTime`, each with the offending text. -/
inductive ParseTimeError where
  | relative (s : String)
  | absolute (s : String)
  deriving DecidableEq, Repr

/-- The function `parseTime` of the source; `now` is what `time.Now()` reads
during the call. The result is the pair `(*time.Time, error)`: an error, or
a pointer that may be nil. -/
def parseTime (env : Env) (now : Time) (s : String) :
    Except ParseTimeError (Option Time) :=
  match s.data with
  | [] => .ok none
  | '-' :: rest =>
    match env.BetterParseDuration (String.mk rest) with
    | some dur => .ok (some (now.Add (wrapInt64 (-dur))))
    | none => .error (.relative s)
  | _ =>
    if s = "now" then .ok (some now)
    else
      match ParseInt s with
      | .ok i => .ok (some (Time.ofUnix i))
      | .error _ => .error (.absolute s)

/-! ## `processTarget` and `GraphiteRenderHandler` -/

/-- The function `processTarget` of the source. -/
def processTarget (env : Env) (target : String) (fromSec toSec maxPoints : Int) :
    Except String SeriesMap :=
  let target := quoteIdentifiers target
  let query := "group(" ++ target ++ ")"
  env.ParseDsl query (Time.ofUnix fromSec) (Time.ofUnix toSec) maxPoints

/-- The timestamp of a datapoint:
`series.CurrentTime().Add(-series.Step()).Unix()`, the negation of the step
taken in `int64` as for a `time.Duration`. -/
def pointTs (step : Duration) (t : Time) : Int := (t.Add (wrapInt64 (-step))).Unix

/-- The loop `for series.Next() { ... }` of the render handler, as the list
of the texts it writes; `n` is the counter of the entries written so far. -/
def renderPoints (env : Env) (step : Duration) : Nat → List (Time × Float64) → List String
  | _, [] => []
  | n, (t, value) :: rest =>
    (if n > 0 then [","] else []) ++
      (let ts := pointTs step t
       if ts > 0 then
         (if value.IsNaN || value.IsInf 0 then ["[null, " ++ fmtInt ts ++ "]"]
          else ["[" ++ env.fmtFloat value ++ ", " ++ fmtInt ts ++ "]"]) ++
           renderPoints env step (n + 1) rest
       else renderPoints env step n rest)

/-- The loop over `seriesMap.SortedKeys()` of the render handler, as the list
of the texts it writes. `tn` is the index of the target, `targets` the number
of targets, `nn` the counter of the series already written. A name without
an entry cannot come out of `SortedKeys` and writes nothing here. -/
def renderSeries (env : Env) (seriesMap : SeriesMap) (tn targets : Nat) :
    Nat → List String → List String
  | _, [] => []
  | nn, name :: names =>
    match seriesMap.lookup name with
    | none => renderSeries env seriesMap tn targets nn names
    | some series =>
      let label := series.Alias
      let name := if label ≠ "" then label else name
      ["\n\x7b\"target\": \"" ++ name ++ "\", \"datapoints\": [\n"] ++
        renderPoints env series.Step 0 series.points ++
        (if (nn : Int) < (seriesMap.length : Int) - 1 ∨ (tn : Int) < (targets : Int) - 1
         then ["]\x7d,\n"] else ["]\x7d"]) ++
        renderSeries env seriesMap tn targets (nn + 1) names

/-- What serving a request leaves behind: the status code, the texts written
to the body in order, the targets handed to `processTarget` in order, and
whether the handler ended in a run-time panic. -/
structure Response where
  status : Nat
  writes : List String
  evaluated : List String
  panicked : Bool
  deriving DecidableEq, Repr

/-- The body of a response: its writes one after the other. -/
def Response.body (r : Response) : String := String.join r.writes

/-- The loop `for tn, target := range r.Form["target"]` of the render
handler, from the target of index `tn` on: the texts written, the targets
evaluated, and whether the loop panicked. `from` is the pointer `parseTime`
returned for `from`; `from.Unix()` on a nil pointer panics before
`processTarget` is entered. A failing target breaks out of the loop. -/
def renderTargets (env : Env) (fromT : Option Time) (toT : Time) (points : Int)
    (targets : Nat) : Nat → List String → List String × List String × Bool
  | _, [] => ([], [], false)
  | tn, target :: rest =>
    match fromT with
    | none => ([], [], true)
    | some fromTime =>
      match processTarget env target fromTime.Unix toT.Unix points with
      | .error _ => ([], [target], false)
      | .ok seriesMap =>
        let here := renderSeries env seriesMap tn targets 0 (SortedKeys seriesMap)
        let later := renderTargets env fromT toT points targets (tn + 1) rest
        (here ++ later.1, target :: later.2.1, later.2.2)

/-- The parameters of a render request: `r.FormValue("from")`,
`r.FormValue("until")`, `r.FormValue("maxDataPoints")` and
`r.Form["target"]`. A missing parameter reads as the empty string. -/
structure Request where
  fromParam : String
  untilParam : String
  maxDataPoints : String
  target : List String

/-- The response that only sets the status 400. -/
def badRequest : Response :=
  { status := 400, writes := [], evaluated := [], panicked := false }

/-- The handler `GraphiteRenderHandler` of the source. -/
def GraphiteRenderHandler (env : Env) (r : Request) : Response :=
  match parseTime env env.nowFrom r.fromParam with
  | .error _ => badRequest
  | .ok fromT =>
    match parseTime env env.nowUntil r.untilParam with
    | .error _ => badRequest
    | .ok untilT =>
      let toT := match untilT with
        | none => env.nowDefault
        | some t => t
      match Atoi r.maxDataPoints with
      | .error _ => badRequest
      | .ok points =>
        let loop := renderTargets env fromT toT points r.target.length 0 r.target
        if loop.2.2 then
          { status := 200, writes := "[" :: loop.1, evaluated := loop.2.1, panicked := true }
        else
          { status := 200, writes := "[" :: loop.1 ++ ["]\n"], evaluated := loop.2.1,
            panicked := false }

/-! ## `GraphiteMetricsFindHandler` -/

/-- Modelled from the spec: a node of the metric tree, as the tree lookup
`FsFind` returns it (package `dsl` is not part of the source at hand): a
dotted path and whether the node is a leaf. -/
structure TreeNode where
  Name : String
  Leaf : Bool

/-- The call `strings.Split(s, ".")`. -/
def splitDot : List Char → List (List Char)
  | [] => [[]]
  | c :: cs =>
    if c = '.' then [] :: splitDot cs
    else
      match splitDot cs with
      | [] => [[c]]
      | p :: ps => (c :: p) :: ps

/-- The value `parts[len(parts)-1]` for `parts := strings.Split(name, ".")`. -/
def lastPart (name : String) : String :=
  String.mk ((splitDot name.data).getLastD [])

/-- The loop `for n, node := range nodes` of the find handler, as the list of
the texts it writes; `n` is the index of the node and `total` the number of
nodes. -/
def findNodes (total : Nat) : Nat → List TreeNode → List String
  | _, [] => []
  | n, node :: rest =>
    (if node.Leaf then
      ["\x7b\"leaf\": 1, \"context\": \x7b\x7d, \"text\": \"" ++ lastPart node.Name ++
        "\", \"expandable\": 0, \"id\": \"" ++ node.Name ++ "\", \"allowChildren\": 0\x7d"]
     else
      ["\x7b\"leaf\": 0, \"context\": \x7b\x7d, \"text\": \"" ++ lastPart node.Name ++
        "\", \"expandable\": 1, \"id\": \"" ++ node.Name ++ "\", \"allowChildren\": 1\x7d"]) ++
    (if (n : Int) < (total : Int) - 1 then [",\n"] else []) ++
    findNodes total (n + 1) rest

/-- The handler `GraphiteMetricsFindHandler` of the source, as the list of the
texts it writes to the body; `FsFind` is the tree lookup of the fetcher and
`query` the form value `query`. -/
def GraphiteMetricsFindHandler (FsFind : String → List TreeNode) (query : String) :
    List String :=
  let nodes := FsFind query
  ["[\n"] ++ findNodes nodes.length 0 nodes ++ ["\n]\n"]

/-! ## Definitions used in the proofs about `quoteIdentifiers` -/

/-- Drop one leading double quote, if there is one: the greedy `"?`. -/
def dropQuote : List Char → List Char
  | '"' :: cs => cs
  | cs => cs

/-- What is left after `[\w\-.*]*[\w*]"?` at the head of the input. -/
def tailRest : List Char → Option (List Char)
  | [] => none
  | c :: cs =>
    if isIdentChar c then
      match tailRest cs with
      | some r => some r
      | none => if isIdentEdge c then some (dropQuote cs) else none
    else none

/-- What is left after the brace group `{[\w\-.*,]*}` at the head of the
input. -/
def groupRest : List Char → Option (List Char)
  | '{' :: u =>
    match u.dropWhile isSetChar with
    | '}' :: v => some v
    | _ => none
  | _ => none

/-- What is left after the pattern without its leading `"?`. -/
def bodyRest : List Char → Option (List Char)
  | [] => none
  | c :: cs =>
    if isIdentEdge c then
      match (groupRest (cs.dropWhile isIdentChar)).bind tailRest with
      | some r => some r
      | none => tailRest cs
    else none

/-- What is left after the whole pattern: the deterministic reading of
`identRe` (`identRe_run`). -/
def tokenRest : List Char → Option (List Char)
  | '"' :: cs => bodyRest cs
  | s => bodyRest s

/-- The part of the pattern after its first class: `[\w\-.*]*`, the optional
brace group, and the tail. -/
def afterEdge : Re :=
  .seq (.star isIdentChar) <|
  .seq (.opt (.seq (Re.chr '{') (.seq (.star isSetChar) (Re.chr '}')))) <|
  .seq (.star isIdentChar) <|
  .seq (.cls isIdentEdge) <|
  .opt (Re.chr '"')

/-- Texts of the form `[\w\-.*]*[\w*]`. -/
def TailCore (x : List Char) : Prop :=
  ∃ r z, (∀ a ∈ r, isIdentChar a = true) ∧ isIdentEdge z = true ∧ x = r ++ [z]

/-- Texts the pattern matches, without the optional double quotes at the
two ends: `[\w*][\w\-.*]*[\w*]`, or the same with one brace group. -/
def Core (b : List Char) : Prop :=
  ∃ c, isIdentEdge c = true ∧
    ((∃ t, TailCore t ∧ b = c :: t) ∨
     (∃ r1 g t, (∀ a ∈ r1, isIdentChar a = true) ∧ (∀ a ∈ g, isSetChar a = true) ∧
        TailCore t ∧ b = c :: (r1 ++ '{' :: (g ++ '}' :: t))))

/-- The number of double quotes that end the text read so far, capped at 2,
after one more character. -/
def nextQ (q : Nat) (c : Char) : Nat := if c = '"' then min 2 (q + 1) else 0

/-- The number of double quotes that end `u`, capped at 2, when `q` of them
came right before `u`. -/
def quoteState (q : Nat) (u : List Char) : Nat := u.foldl nextQ q

/-- The occurrences `strings.Replace` takes: `Chosen old s o` says that the
loop replaces the occurrence of `old` that starts at index `o` of `s`. -/
inductive Chosen (old : List Char) : List Char → Nat → Prop
  | here (v : List Char) : Chosen old (old ++ v) 0
  | after (v : List Char) (o : Nat) : Chosen old v o → Chosen old (old ++ v) (old.length + o)
  | next (c : Char) (cs : List Char) (o : Nat) :
      ¬ old <+: (c :: cs) → Chosen old cs o → Chosen old (c :: cs) (o + 1)

/-- The form of a part that `quoteIdentifiers` substitutes: a character of
`[\w*]`, then characters other than the double quote and the backslash, then
at most one double quote. -/
def PartShape (part : List Char) : Prop :=
  ∃ c m q2, isIdentEdge c = true ∧ (∀ a ∈ m, a ≠ '"' ∧ a ≠ '\\') ∧
    (q2 = [] ∨ q2 = ['"']) ∧ part = c :: m ++ q2

/-- The value of the skip counter of `findAllAux` on arrival at index `k` of
the input; the pattern is tried at `k` exactly when the value is 0. -/
def scanSkip : Nat → List Char → Nat → Nat
  | sk, _, 0 => sk
  | _, [], _ + 1 => 0
  | sk + 1, _ :: cs, k + 1 => scanSkip sk cs k
  | 0, c :: cs, k + 1 =>
    match matchLen (c :: cs) with
    | some n => scanSkip (n - 1) cs k
    | none => scanSkip 0 cs k

/-! ## A sample environment and a predicate for the statements -/

/-- A query engine that knows the single series `a`, without points, and
fails on every other query. -/
def envDemo : Env where
  BetterParseDuration := fun _ => none
  ParseDsl := fun query _ _ _ =>
    if query = "group(a)" then .ok [("a", { points := [], Step := 60000000000, Alias := "" })]
    else .error "unknown series"
  fmtFloat := fun _ => "1"
  nowFrom := ⟨0⟩
  nowUntil := ⟨0⟩
  nowDefault := ⟨0⟩

/-- A text for a base-10 integer as the claim about `maxDataPoints` words it:
an optional sign, then one decimal digit or more. -/
def isBase10Integer (s : String) : Bool :=
  match s.data with
  | '+' :: ds => !ds.isEmpty && ds.all Char.isDigit
  | '-' :: ds => !ds.isEmpty && ds.all Char.isDigit
  | ds => !ds.isEmpty && ds.all Char.isDigit

/-! ## Definitions used in the statements about `parseTime` and the handlers -/

/-- The number that a run of decimal digits writes. -/
def decimalValue (ds : List Char) : Nat :=
  ds.foldl (fun n c => n * 10 + (c.toNat - 48)) 0

/-- The object of a node as the specification words it: `leaf` is 1 for a
leaf and 0 otherwise, `expandable` and `allowChildren` are 1 less `leaf`,
`text` is the last segment of the name and `id` the whole name. -/
def nodeObject (node : TreeNode) : String :=
  let leaf : Nat := if node.Leaf then 1 else 0
  "\x7b\"leaf\": " ++ toString leaf ++ ", \"context\": \x7b\x7d, \"text\": \"" ++
    lastPart node.Name ++ "\", \"expandable\": " ++ toString (1 - leaf) ++
    ", \"id\": \"" ++ node.Name ++ "\", \"allowChildren\": " ++ toString (1 - leaf) ++ "\x7d"

/-- The header of a series object in the render body, for a `target` label. -/
def seriesHeader (label : String) : String :=
  "\n\x7b\"target\": \"" ++ label ++ "\", \"datapoints\": [\n"

/-- Whether a text written by the render handler is a series header: of all
the texts of the series loop only the headers start with a newline. -/
def isHeader (w : String) : Bool := decide (w.data.head? = some '\n')

/-- A collection with two series, the second with an alias. -/
def mapDemo : SeriesMap :=
  [("b.x", { points := [], Step := 60000000000, Alias := "" }),
   ("a.y", { points := [], Step := 60000000000, Alias := "zz" })]

/-- The entry of a point in the datapoints list: `[null, ts]` for a value that
is NaN or infinite, `[value, ts]` otherwise. -/
def pointEntry (env : Env) (step : Duration) (p : Time × Float64) : String :=
  if p.2.IsNaN || p.2.IsInf 0 then "[null, " ++ fmtInt (pointTs step p.1) ++ "]"
  else "[" ++ env.fmtFloat p.2 ++ ", " ++ fmtInt (pointTs step p.1) ++ "]"

/-- The `float64` 1. -/
def floatOne : Float64 := { sign := false, exponent := 1023, mantissa := 0 }

/-- A text with every double quote and every backslash deleted. -/
def stripQuotes (l : List Char) : List Char :=
  l.filter (fun c => decide (c ≠ '"' ∧ c ≠ '\\'))

end Graphite

namespace Graphite

/-! ## The pattern read deterministically -/

theorem isIdentEdge_isIdentChar {c : Char} (h : isIdentEdge c = true) :
    isIdentChar c = true := by
  simp only [isIdentEdge, isIdentChar, Bool.or_eq_true] at *
  rcases h with h | h
  · exact Or.inl (Or.inl (Or.inl h))
  · exact Or.inr h

theorem isIdentChar_isSetChar {c : Char} (h : isIdentChar c = true) :
    isSetChar c = true := by
  simp only [isSetChar, isIdentChar, Bool.or_eq_true] at *
  exact Or.inl h

theorem isSetChar_ne_quote {c : Char} (h : isSetChar c = true) : c ≠ '"' := by
  rintro rfl; exact absurd h (by decide)

theorem isSetChar_ne_backslash {c : Char} (h : isSetChar c = true) : c ≠ '\\' := by
  rintro rfl; exact absurd h (by decide)

theorem isSetChar_ne_open {c : Char} (h : isSetChar c = true) : c ≠ '{' := by
  rintro rfl; exact absurd h (by decide)

theorem isSetChar_ne_close {c : Char} (h : isSetChar c = true) : c ≠ '}' := by
  rintro rfl; exact absurd h (by decide)

theorem opt_quote_run {α : Type} (k : List Char → Option α)
    (hk : ∀ x, (k x).isSome) (s : List Char) :
    (Re.opt (Re.chr '"')).run k s = k (dropQuote s) := by
  cases s with
  | nil => simp [Re.run, Re.chr, dropQuote]
  | cons c cs =>
    by_cases hc : c = '"'
    · subst hc
      have := hk cs
      simp only [Re.run, Re.chr, dropQuote]
      cases h : k cs with
      | none => simp [h] at this
      | some r => simp
    · have hd : dropQuote (c :: cs) = c :: cs := by
        unfold dropQuote
        split
        · next h => simp at h; exact absurd h.1 hc
        · rfl
      simp [Re.run, Re.chr, hd, hc]

theorem tail_run {α : Type} (k : List Char → Option α)
    (hk : ∀ x, (k x).isSome) (s : List Char) :
    starRun isIdentChar ((Re.cls isIdentEdge).run ((Re.opt (Re.chr '"')).run k)) s =
      (tailRest s).bind k := by
  induction s with
  | nil => simp [starRun, Re.run, tailRest]
  | cons c cs ih =>
    unfold starRun tailRest
    by_cases hc : isIdentChar c = true
    · rw [if_pos hc, if_pos hc, ih]
      cases ht : tailRest cs with
      | some r =>
        have := hk r
        cases hkr : k r with
        | none => simp [hkr] at this
        | some y => simp [hkr]
      | none =>
        simp only [Option.bind, Re.run]
        by_cases he : isIdentEdge c = true
        · simp only [he, if_true]
          exact opt_quote_run k hk cs
        · simp [he]
    · have he : ¬ isIdentEdge c = true := fun h => hc (isIdentEdge_isIdentChar h)
      simp [hc, he, Re.run]

theorem group_star_run {α : Type} (k : List Char → Option α) (u : List Char) :
    starRun isSetChar ((Re.chr '}').run k) u =
      (Re.chr '}').run k (u.dropWhile isSetChar) := by
  induction u with
  | nil => simp [starRun]
  | cons c cs ih =>
    unfold starRun
    by_cases hc : isSetChar c = true
    · rw [if_pos hc, ih, List.dropWhile_cons_of_pos hc]
      cases h : (Re.chr '}').run k (List.dropWhile isSetChar cs) with
      | some r => rfl
      | none =>
        simp [Re.run, Re.chr, isSetChar_ne_close hc]
    · rw [if_neg hc, List.dropWhile_cons_of_neg hc]

theorem run_seq {α : Type} (a b : Re) (k : List Char → Option α) (s : List Char) :
    (Re.seq a b).run k s = a.run (b.run k) s := rfl

theorem run_star {α : Type} (p : Char → Bool) (k : List Char → Option α) (s : List Char) :
    (Re.star p).run k s = starRun p k s := rfl

theorem run_opt {α : Type} (a : Re) (k : List Char → Option α) (s : List Char) :
    (Re.opt a).run k s = match a.run k s with
      | some r => some r
      | none => k s := rfl

theorem run_cls_nil {α : Type} (p : Char → Bool) (k : List Char → Option α) :
    (Re.cls p).run k [] = none := rfl

theorem run_cls_cons {α : Type} (p : Char → Bool) (k : List Char → Option α)
    (c : Char) (cs : List Char) :
    (Re.cls p).run k (c :: cs) = if p c then k cs else none := rfl

theorem run_chr_cons {α : Type} (d : Char) (k : List Char → Option α)
    (c : Char) (cs : List Char) :
    (Re.chr d).run k (c :: cs) = if c = d then k cs else none := by
  simp [Re.chr, run_cls_cons]

theorem run_chr_nil {α : Type} (d : Char) (k : List Char → Option α) :
    (Re.chr d).run k [] = none := rfl

theorem groupRest_open (u : List Char) :
    groupRest ('{' :: u) = match u.dropWhile isSetChar with
      | '}' :: v => some v
      | _ => none := rfl

theorem groupRest_of_ne {c : Char} (hc : c ≠ '{') (cs : List Char) :
    groupRest (c :: cs) = none := by
  unfold groupRest
  split
  · next h => simp at h; exact absurd h.1 hc
  · rfl

theorem groupRest_nil : groupRest [] = none := rfl

theorem group_run {α : Type} (k : List Char → Option α) (s : List Char) :
    (Re.seq (Re.chr '{') (Re.seq (Re.star isSetChar) (Re.chr '}'))).run k s =
      (groupRest s).bind k := by
  cases s with
  | nil => rw [run_seq, run_chr_nil, groupRest_nil]; rfl
  | cons c cs =>
    rw [run_seq, run_chr_cons]
    by_cases hc : c = '{'
    · subst hc
      rw [if_pos rfl, run_seq, run_star, group_star_run, groupRest_open]
      cases h : List.dropWhile isSetChar cs with
      | nil => rfl
      | cons d ds =>
        rw [run_chr_cons]
        by_cases hd : d = '}'
        · subst hd; simp
        · rw [if_neg hd]
          split
          · next h2 => simp at h2; exact absurd h2.1 hd
          · rfl
    · rw [if_neg hc, groupRest_of_ne hc]; rfl

theorem tailRest_cons_of_some {c : Char} {cs r : List Char}
    (hc : isIdentChar c = true) (h : tailRest cs = some r) :
    tailRest (c :: cs) = some r := by
  rw [tailRest, if_pos hc, h]

theorem tailRest_cons_of_none {c : Char} {cs : List Char}
    (hc : isIdentChar c = true) (h : tailRest cs = none) :
    tailRest (c :: cs) = if isIdentEdge c then some (dropQuote cs) else none := by
  rw [tailRest, if_pos hc, h]

theorem tailRest_of_not {c : Char} (hc : ¬ isIdentChar c = true) (cs : List Char) :
    tailRest (c :: cs) = none := by
  rw [tailRest, if_neg hc]

theorem afterEdge_run {α : Type} (k : List Char → Option α)
    (hk : ∀ x, (k x).isSome) (s : List Char) :
    afterEdge.run k s =
      match ((groupRest (s.dropWhile isIdentChar)).bind tailRest).bind k with
      | some r => some r
      | none => (tailRest s).bind k := by
  have hT : ∀ x, (Re.seq (Re.star isIdentChar)
      (Re.seq (Re.cls isIdentEdge) (Re.opt (Re.chr '"')))).run k x = (tailRest x).bind k := by
    intro x
    rw [run_seq, run_star]
    exact tail_run k hk x
  have hK2 : ∀ x, (Re.seq (Re.opt (Re.seq (Re.chr '{') (Re.seq (Re.star isSetChar) (Re.chr '}'))))
      (Re.seq (Re.star isIdentChar) (Re.seq (Re.cls isIdentEdge) (Re.opt (Re.chr '"'))))).run k x =
      match ((groupRest x).bind tailRest).bind k with
      | some r => some r
      | none => (tailRest x).bind k := by
    intro x
    rw [run_seq, run_opt, group_run]
    have : ((groupRest x).bind fun a => (Re.seq (Re.star isIdentChar)
        (Re.seq (Re.cls isIdentEdge) (Re.opt (Re.chr '"')))).run k a) =
        ((groupRest x).bind tailRest).bind k := by
      cases groupRest x with
      | none => rfl
      | some y => simp [hT]
    rw [this, hT]
  unfold afterEdge
  rw [run_seq, run_star]
  induction s with
  | nil =>
    rw [starRun, hK2]
    rfl
  | cons c cs ih =>
    rw [starRun]
    by_cases hc : isIdentChar c = true
    · rw [if_pos hc, ih, List.dropWhile_cons_of_pos hc, hK2,
        groupRest_of_ne (isSetChar_ne_open (isIdentChar_isSetChar hc))]
      cases hg : ((groupRest (List.dropWhile isIdentChar cs)).bind tailRest).bind k with
      | some r => rfl
      | none =>
        cases ht : tailRest cs with
        | some r =>
          rw [tailRest_cons_of_some hc ht]
          have := hk r
          cases hkr : k r with
          | none => simp [hkr] at this
          | some y => simp [hkr]
        | none => simp
    · rw [if_neg hc, List.dropWhile_cons_of_neg hc, hK2]

theorem bodyRest_cons (c : Char) (cs : List Char) :
    bodyRest (c :: cs) =
      if isIdentEdge c then
        match (groupRest (cs.dropWhile isIdentChar)).bind tailRest with
        | some r => some r
        | none => tailRest cs
      else none := rfl

theorem body_run {α : Type} (k : List Char → Option α)
    (hk : ∀ x, (k x).isSome) (s : List Char) :
    (Re.seq (Re.cls isIdentEdge) afterEdge).run k s = (bodyRest s).bind k := by
  cases s with
  | nil => rfl
  | cons c cs =>
    rw [run_seq, run_cls_cons, bodyRest_cons]
    by_cases hc : isIdentEdge c = true
    · rw [if_pos hc, if_pos hc, afterEdge_run k hk]
      cases hg : (groupRest (List.dropWhile isIdentChar cs)).bind tailRest with
      | some r =>
        have := hk r
        cases hkr : k r with
        | none => simp [hkr] at this
        | some y => simp [hkr]
      | none => simp
    · rw [if_neg hc, if_neg hc]; rfl

theorem tokenRest_quote (cs : List Char) : tokenRest ('"' :: cs) = bodyRest cs := rfl

theorem tokenRest_of_ne {c : Char} (hc : c ≠ '"') (cs : List Char) :
    tokenRest (c :: cs) = bodyRest (c :: cs) := by
  unfold tokenRest
  split
  · next h => simp at h; exact absurd h.1 hc
  · rfl

theorem bodyRest_quote (cs : List Char) : bodyRest ('"' :: cs) = none := by
  rw [bodyRest_cons, if_neg (by decide)]

/-- The backtracking run of the pattern agrees with its deterministic
reading, for every continuation that accepts whatever is left. -/
theorem identRe_run {α : Type} (k : List Char → Option α)
    (hk : ∀ x, (k x).isSome) (s : List Char) :
    identRe.run k s = (tokenRest s).bind k := by
  have hid : identRe = Re.seq (Re.opt (Re.chr '"')) (Re.seq (Re.cls isIdentEdge) afterEdge) := rfl
  rw [hid, run_seq, run_opt]
  cases s with
  | nil => rw [run_chr_nil, body_run k hk]; rfl
  | cons c cs =>
    rw [run_chr_cons]
    by_cases hc : c = '"'
    · subst hc
      rw [if_pos rfl, body_run k hk, body_run k hk, tokenRest_quote, bodyRest_quote]
      cases (bodyRest cs).bind k <;> rfl
    · rw [if_neg hc, body_run k hk, tokenRest_of_ne hc]

theorem matchLen_eq (s : List Char) :
    matchLen s = (tokenRest s).map (fun rest => s.length - rest.length) := by
  unfold matchLen
  rw [identRe_run (fun rest => some (s.length - rest.length)) (fun _ => rfl)]
  cases tokenRest s <;> rfl

theorem dropQuote_quote (cs : List Char) : dropQuote ('"' :: cs) = cs := rfl

theorem dropQuote_of_ne {c : Char} (hc : c ≠ '"') (cs : List Char) :
    dropQuote (c :: cs) = c :: cs := by
  unfold dropQuote
  split
  · next h => simp at h; exact absurd h.1 hc
  · rfl

theorem dropQuote_nil : dropQuote [] = [] := rfl

theorem dropQuote_cases (v : List Char) :
    (∃ w, v = '"' :: w ∧ dropQuote v = w) ∨ ((∀ w, v ≠ '"' :: w) ∧ dropQuote v = v) := by
  cases v with
  | nil => right; exact ⟨fun w h => by simp at h, rfl⟩
  | cons c cs =>
    by_cases hc : c = '"'
    · subst hc; left; exact ⟨cs, rfl, rfl⟩
    · right; exact ⟨fun w h => by simp at h; exact hc h.1, dropQuote_of_ne hc cs⟩

theorem dropQuote_length_le (v : List Char) : (dropQuote v).length ≤ v.length := by
  rcases dropQuote_cases v with ⟨w, rfl, h⟩ | ⟨_, h⟩
  · rw [h]; simp
  · rw [h]

theorem tailRest_some {y rest : List Char} (h : tailRest y = some rest) :
    ∃ x, TailCore x ∧ (y = x ++ rest ∨ y = x ++ '"' :: rest) := by
  induction y with
  | nil => simp [tailRest] at h
  | cons c cs ih =>
    by_cases hc : isIdentChar c = true
    · cases ht : tailRest cs with
      | some r =>
        rw [tailRest_cons_of_some hc ht] at h
        cases h
        obtain ⟨x, ⟨r0, z, hr0, hz, rfl⟩, hx⟩ := ih ht
        refine ⟨c :: (r0 ++ [z]), ⟨c :: r0, z, ?_, hz, rfl⟩, ?_⟩
        · intro a ha
          rcases List.mem_cons.1 ha with rfl | ha
          · exact hc
          · exact hr0 a ha
        · rcases hx with hx | hx
          · left; rw [hx]; rfl
          · right; rw [hx]; rfl
      | none =>
        rw [tailRest_cons_of_none hc ht] at h
        by_cases he : isIdentEdge c = true
        · rw [if_pos he] at h
          cases h
          refine ⟨[c], ⟨[], c, by simp, he, rfl⟩, ?_⟩
          rcases dropQuote_cases cs with ⟨w, rfl, hw⟩ | ⟨_, hw⟩
          · right; rw [hw]; rfl
          · left; rw [hw]; rfl
        · rw [if_neg he] at h; cases h
    · rw [tailRest_of_not hc] at h; cases h

theorem tailRest_quote (cs : List Char) : tailRest ('"' :: cs) = none :=
  tailRest_of_not (by decide) cs

theorem tailRest_length {y rest : List Char} (h : tailRest y = some rest) :
    rest.length < y.length := by
  obtain ⟨x, ⟨r, z, _, _, rfl⟩, hx | hx⟩ := tailRest_some h
  · rw [hx]; simp only [List.length_append, List.length_cons, List.length_nil]; omega
  · rw [hx]; simp only [List.length_append, List.length_cons, List.length_nil]; omega

theorem tailRest_length_dropQuote {y rest : List Char} (h : tailRest y = some rest) :
    rest.length ≤ (dropQuote y).length := by
  rcases dropQuote_cases y with ⟨w, rfl, _⟩ | ⟨_, hw⟩
  · rw [tailRest_quote] at h; cases h
  · rw [hw]; exact Nat.le_of_lt (tailRest_length h)

/-- A text of the form `[\w\-.*]*[\w*]` is matched whatever follows it, and the
match does not stop short of its last character, nor of a double quote
that follows it. -/
theorem tailRest_extend {x : List Char} (hx : TailCore x) (v : List Char) :
    ∃ rest, tailRest (x ++ v) = some rest ∧ rest.length ≤ (dropQuote v).length := by
  obtain ⟨r, z, hr, hz, rfl⟩ := hx
  induction r with
  | nil =>
    have hzc := isIdentEdge_isIdentChar hz
    cases ht : tailRest v with
    | some r' =>
      exact ⟨r', by simpa using tailRest_cons_of_some hzc ht, tailRest_length_dropQuote ht⟩
    | none =>
      refine ⟨dropQuote v, ?_, le_refl _⟩
      have := tailRest_cons_of_none (c := z) hzc ht
      rw [if_pos hz] at this
      simpa using this
  | cons a r ih =>
    obtain ⟨rest, h1, h2⟩ := ih (fun b hb => hr b (List.mem_cons_of_mem _ hb))
    refine ⟨rest, ?_, h2⟩
    have ha := hr a (List.mem_cons_self _ _)
    have := tailRest_cons_of_some ha h1
    simpa using this

theorem groupRest_some {y v : List Char} (h : groupRest y = some v) :
    ∃ g, (∀ a ∈ g, isSetChar a = true) ∧ y = '{' :: (g ++ '}' :: v) := by
  cases y with
  | nil => cases h
  | cons c cs =>
    by_cases hc : c = '{'
    · subst hc
      rw [groupRest_open] at h
      refine ⟨cs.takeWhile isSetChar, fun a ha => List.mem_takeWhile_imp ha, ?_⟩
      have hsplit := List.takeWhile_append_dropWhile isSetChar cs
      cases hd : List.dropWhile isSetChar cs with
      | nil => rw [hd] at h; cases h
      | cons d ds =>
        rw [hd] at h
        by_cases hdc : d = '}'
        · subst hdc
          simp at h
          subst h
          rw [hd] at hsplit
          rw [hsplit]
        · exfalso
          revert h
          split
          · next h2 => simp at h2; exact absurd h2.1 hdc
          · simp
    · rw [groupRest_of_ne hc] at h; cases h

theorem dropWhile_append_of_all {p : Char → Bool} {r : List Char}
    (hr : ∀ a ∈ r, p a = true) (v : List Char) :
    (r ++ v).dropWhile p = v.dropWhile p := by
  induction r with
  | nil => rfl
  | cons a r ih =>
    rw [List.cons_append, List.dropWhile_cons_of_pos (hr a (List.mem_cons_self _ _))]
    exact ih (fun b hb => hr b (List.mem_cons_of_mem _ hb))

theorem groupRest_shape {g : List Char} (hg : ∀ a ∈ g, isSetChar a = true) (v : List Char) :
    groupRest ('{' :: (g ++ '}' :: v)) = some v := by
  rw [groupRest_open, dropWhile_append_of_all hg,
    List.dropWhile_cons_of_neg (by decide)]
  rfl

theorem groupRest_length {y v : List Char} (h : groupRest y = some v) :
    v.length < y.length := by
  obtain ⟨g, _, rfl⟩ := groupRest_some h
  simp; omega

theorem dropWhile_length_le (p : Char → Bool) (v : List Char) :
    (v.dropWhile p).length ≤ v.length :=
  (List.dropWhile_suffix p).length_le

theorem bodyRest_some {y rest : List Char} (h : bodyRest y = some rest) :
    ∃ b, Core b ∧ (y = b ++ rest ∨ y = b ++ '"' :: rest) := by
  cases y with
  | nil => cases h
  | cons c cs =>
    rw [bodyRest_cons] at h
    by_cases hc : isIdentEdge c = true
    · rw [if_pos hc] at h
      cases hg : (groupRest (cs.dropWhile isIdentChar)).bind tailRest with
      | some r =>
        rw [hg] at h
        cases h
        obtain ⟨v, hv, hvt⟩ := Option.bind_eq_some.1 hg
        obtain ⟨g, hgall, hgeq⟩ := groupRest_some hv
        obtain ⟨t, ht, htr⟩ := tailRest_some hvt
        obtain ⟨r1, hr1, hcs⟩ : ∃ r1, (∀ a ∈ r1, isIdentChar a = true) ∧
            cs = r1 ++ '{' :: (g ++ '}' :: v) := by
          refine ⟨cs.takeWhile isIdentChar, fun a ha => List.mem_takeWhile_imp ha, ?_⟩
          rw [← hgeq, List.takeWhile_append_dropWhile]
        refine ⟨c :: (r1 ++ '{' :: (g ++ '}' :: t)),
          ⟨c, hc, Or.inr ⟨r1, g, t, hr1, hgall, ht, rfl⟩⟩, ?_⟩
        rcases htr with htr | htr
        · left; rw [hcs, htr]; simp
        · right; rw [hcs, htr]; simp
      | none =>
        rw [hg] at h
        obtain ⟨t, ht, htr⟩ := tailRest_some h
        refine ⟨c :: t, ⟨c, hc, Or.inl ⟨t, ht, rfl⟩⟩, ?_⟩
        rcases htr with htr | htr
        · left; rw [htr]; rfl
        · right; rw [htr]; rfl
    · rw [if_neg hc] at h; cases h

/-- A text of the pattern's form is matched whatever follows it, and the
match does not stop short of its last character, nor of a double quote that
follows it. -/
theorem bodyRest_extend {b : List Char} (hb : Core b) (v : List Char) :
    ∃ rest, bodyRest (b ++ v) = some rest ∧ rest.length ≤ (dropQuote v).length := by
  obtain ⟨c, hc, ⟨t, ht, rfl⟩ | ⟨r1, g, t, hr1, hg, ht, rfl⟩⟩ := hb
  · obtain ⟨rest, h1, h2⟩ := tailRest_extend ht v
    rw [List.cons_append, bodyRest_cons, if_pos hc]
    cases hgr : (groupRest ((t ++ v).dropWhile isIdentChar)).bind tailRest with
    | some r =>
      refine ⟨r, rfl, ?_⟩
      obtain ⟨w, hw, hwt⟩ := Option.bind_eq_some.1 hgr
      obtain ⟨r0, z, hr0, hz, rfl⟩ := ht
      have hall : ∀ a ∈ r0 ++ [z], isIdentChar a = true := by
        intro a ha
        rcases List.mem_append.1 ha with ha | ha
        · exact hr0 a ha
        · rw [List.mem_singleton.1 ha]; exact isIdentEdge_isIdentChar hz
      rw [dropWhile_append_of_all hall] at hw
      rcases dropQuote_cases v with ⟨u, rfl, _⟩ | ⟨_, hu⟩
      · rw [List.dropWhile_cons_of_neg (by decide), groupRest_of_ne (by decide)] at hw
        cases hw
      · rw [hu]
        have h3 := groupRest_length hw
        have h4 := tailRest_length hwt
        have h5 := dropWhile_length_le isIdentChar v
        omega
    | none => exact ⟨rest, h1, h2⟩
  · obtain ⟨rest, h1, h2⟩ := tailRest_extend ht v
    refine ⟨rest, ?_, h2⟩
    rw [List.cons_append, bodyRest_cons, if_pos hc]
    have : (r1 ++ '{' :: (g ++ '}' :: t)) ++ v = r1 ++ '{' :: (g ++ '}' :: (t ++ v)) := by simp
    rw [this, dropWhile_append_of_all hr1, List.dropWhile_cons_of_neg (by decide),
      groupRest_shape hg]
    simp [h1]

theorem replaceAux_skip (old new : List Char) (u v : List Char) :
    replaceAux old new u.length (u ++ v) = replaceAux old new 0 v := by
  induction u with
  | nil => rfl
  | cons a u ih => simpa [replaceAux] using ih

theorem replaceAll_nil (old new : List Char) : replaceAll [] old new = [] := rfl

theorem replaceAll_append {old : List Char} (hold : old ≠ []) (new v : List Char) :
    replaceAll (old ++ v) old new = new ++ replaceAll v old new := by
  cases old with
  | nil => exact absurd rfl hold
  | cons a old' =>
    have hp : (a :: old').isPrefixOf (a :: (old' ++ v)) = true := by
      rw [List.isPrefixOf_iff_prefix]
      exact List.prefix_append (a :: old') v
    unfold replaceAll
    rw [List.cons_append, replaceAux, if_pos hp]
    simp only [List.length_cons, Nat.add_sub_cancel]
    rw [replaceAux_skip]

theorem replaceAll_cons {old : List Char} {c : Char} {cs : List Char}
    (h : ¬ old <+: (c :: cs)) (new : List Char) :
    replaceAll (c :: cs) old new = c :: replaceAll cs old new := by
  have hp : ¬ old.isPrefixOf (c :: cs) = true := by
    rw [List.isPrefixOf_iff_prefix]; exact h
  unfold replaceAll
  rw [replaceAux, if_neg hp]

theorem quoteWeightAux_nil (q : Nat) : quoteWeightAux q [] = 0 := by
  unfold quoteWeightAux; rfl

theorem quoteWeightAux_cons (q : Nat) (c : Char) (cs : List Char) :
    quoteWeightAux q (c :: cs) =
      (if isIdentEdge c then 2 - q else 0) + quoteWeightAux (nextQ q c) cs := by
  rw [quoteWeightAux]
  by_cases hc : c = '"'
  · subst hc
    simp [nextQ, show isIdentEdge '"' = false by decide]
  · simp [nextQ, hc]

theorem quoteState_nil (q : Nat) : quoteState q [] = q := rfl

theorem quoteState_cons (q : Nat) (c : Char) (cs : List Char) :
    quoteState q (c :: cs) = quoteState (nextQ q c) cs := rfl

theorem quoteState_append (q : Nat) (u v : List Char) :
    quoteState q (u ++ v) = quoteState (quoteState q u) v := by
  unfold quoteState; rw [List.foldl_append]

theorem quoteWeightAux_append (q : Nat) (u v : List Char) :
    quoteWeightAux q (u ++ v) = quoteWeightAux q u + quoteWeightAux (quoteState q u) v := by
  induction u generalizing q with
  | nil => simp [quoteWeightAux_nil, quoteState_nil]
  | cons a u ih =>
    rw [List.cons_append, quoteWeightAux_cons, quoteWeightAux_cons, ih, quoteState_cons]
    omega

theorem nextQ_mono {q q' : Nat} (h : q ≤ q') (c : Char) : nextQ q c ≤ nextQ q' c := by
  unfold nextQ
  split
  · omega
  · exact le_refl _

theorem quoteWeightAux_mono {q q' : Nat} (h : q ≤ q') (s : List Char) :
    quoteWeightAux q' s ≤ quoteWeightAux q s := by
  induction s generalizing q q' with
  | nil => simp [quoteWeightAux_nil]
  | cons c cs ih =>
    rw [quoteWeightAux_cons, quoteWeightAux_cons]
    have := ih (nextQ_mono h c)
    split <;> omega

theorem nextQ_of_ne {c : Char} (hc : c ≠ '"') (q : Nat) : nextQ q c = 0 := by
  simp [nextQ, hc]

theorem quoteState_zero_of_noQuote {m : List Char} (hm : ∀ a ∈ m, a ≠ '"') :
    quoteState 0 m = 0 := by
  induction m with
  | nil => rfl
  | cons a m ih =>
    rw [quoteState_cons, nextQ_of_ne (hm a (List.mem_cons_self _ _))]
    exact ih (fun b hb => hm b (List.mem_cons_of_mem _ hb))

/-- The weight of a text that starts with a character of `[\w*]` and holds no
double quote, followed by `x`. -/
theorem quoteWeightAux_plain {c : Char} {m : List Char} (hc : isIdentEdge c = true)
    (hcq : c ≠ '"') (hm : ∀ a ∈ m, a ≠ '"') (q : Nat) (x : List Char) :
    quoteWeightAux q (c :: m ++ x) = (2 - q) + quoteWeightAux 0 m + quoteWeightAux 0 x := by
  rw [List.cons_append, quoteWeightAux_cons, if_pos hc, nextQ_of_ne hcq,
    quoteWeightAux_append, quoteState_zero_of_noQuote hm]
  omega

theorem quoteState_plain {c : Char} {m : List Char}
    (hcq : c ≠ '"') (hm : ∀ a ∈ m, a ≠ '"') (q : Nat) :
    quoteState q (c :: m) = 0 := by
  rw [quoteState_cons, nextQ_of_ne hcq, quoteState_zero_of_noQuote hm]

theorem escapeChars_plain {m : List Char} (hm : ∀ a ∈ m, a ≠ '"' ∧ a ≠ '\\') :
    escapeChars m = m := by
  induction m with
  | nil => rfl
  | cons a m ih =>
    have ha := hm a (List.mem_cons_self _ _)
    rw [escapeChars, if_neg (by simp [ha.1, ha.2]), ih (fun b hb => hm b (List.mem_cons_of_mem _ hb))]

theorem escapeChars_append (u v : List Char) :
    escapeChars (u ++ v) = escapeChars u ++ escapeChars v := by
  induction u with
  | nil => rfl
  | cons a u ih =>
    rw [List.cons_append, escapeChars, escapeChars, ih]
    split <;> rfl

theorem isIdentEdge_ne_quote {c : Char} (h : isIdentEdge c = true) : c ≠ '"' :=
  isSetChar_ne_quote (isIdentChar_isSetChar (isIdentEdge_isIdentChar h))

theorem isIdentEdge_ne_backslash {c : Char} (h : isIdentEdge c = true) : c ≠ '\\' :=
  isSetChar_ne_backslash (isIdentChar_isSetChar (isIdentEdge_isIdentChar h))

theorem PartShape.ne_nil {part : List Char} (h : PartShape part) : part ≠ [] := by
  obtain ⟨c, m, q2, _, _, _, rfl⟩ := h
  simp

/-- The weights of a part and of its `%q` text in front of any text `x`. -/
theorem weight_part {part : List Char} (hP : PartShape part) :
    ∃ K sP sQ, sP ≤ sQ ∧
      (∀ q x, quoteWeightAux q (part ++ x) = (2 - q) + K + quoteWeightAux sP x) ∧
      (∀ q x, quoteWeightAux q (goQuote part ++ x) =
        (2 - min 2 (q + 1)) + K + quoteWeightAux sQ x) ∧
      (∀ q, quoteState q part = sP) := by
  obtain ⟨c, m, q2, hc, hm, hq2, rfl⟩ := hP
  have hcq := isIdentEdge_ne_quote hc
  have hcb := isIdentEdge_ne_backslash hc
  have hmq : ∀ a ∈ m, a ≠ '"' := fun a ha => (hm a ha).1
  have hcm : ∀ a ∈ c :: m, a ≠ '"' ∧ a ≠ '\\' := by
    intro a ha
    rcases List.mem_cons.1 ha with rfl | ha
    · exact ⟨hcq, hcb⟩
    · exact hm a ha
  have hesc : escapeChars (c :: m) = c :: m := escapeChars_plain hcm
  rcases hq2 with rfl | rfl
  · refine ⟨quoteWeightAux 0 m, 0, 1, by omega, ?_, ?_, ?_⟩
    · intro q x
      rw [List.append_nil]
      exact quoteWeightAux_plain hc hcq hmq q x
    · intro q x
      have : goQuote (c :: m ++ []) ++ x = '"' :: (c :: m ++ ('"' :: x)) := by
        simp only [goQuote, List.append_nil, hesc]
        simp
      rw [this, quoteWeightAux_cons, if_neg (by decide),
        quoteWeightAux_plain hc hcq hmq, quoteWeightAux_cons, if_neg (by decide)]
      simp [nextQ]
    · intro q
      rw [List.append_nil]
      exact quoteState_plain hcq hmq q
  · refine ⟨quoteWeightAux 0 m, 1, 2, by omega, ?_, ?_, ?_⟩
    · intro q x
      have : c :: m ++ ['"'] ++ x = c :: m ++ ('"' :: x) := by simp
      rw [this, quoteWeightAux_plain hc hcq hmq, quoteWeightAux_cons, if_neg (by decide)]
      simp [nextQ]
    · intro q x
      have : goQuote (c :: m ++ ['"']) ++ x =
          '"' :: (c :: m ++ ('\\' :: '"' :: '"' :: x)) := by
        simp only [goQuote, escapeChars_append, hesc]
        simp [escapeChars]
      rw [this, quoteWeightAux_cons, if_neg (by decide),
        quoteWeightAux_plain hc hcq hmq, quoteWeightAux_cons, if_neg (by decide),
        quoteWeightAux_cons, if_neg (by decide), quoteWeightAux_cons, if_neg (by decide)]
      simp [nextQ]
    · intro q
      rw [quoteState_append, quoteState_plain hcq hmq q]
      rfl

/-- Replacing a part by its `%q` text never raises the weight. -/
theorem quoteWeightAux_replace_le {part : List Char} (hP : PartShape part) :
    ∀ (s : List Char) (q q' : Nat), q ≤ q' →
      quoteWeightAux q' (replaceAll s part (goQuote part)) ≤ quoteWeightAux q s := by
  obtain ⟨K, sP, sQ, hs, hWP, hWQ, _⟩ := weight_part hP
  intro s
  generalize hn : s.length = n
  induction n using Nat.strong_induction_on generalizing s with
  | _ n ih =>
    intro q q' hq
    cases s with
    | nil => rw [replaceAll_nil]; simp [quoteWeightAux_nil]
    | cons c cs =>
      by_cases hpre : part <+: (c :: cs)
      · obtain ⟨v, hv⟩ := hpre
        rw [← hv, replaceAll_append hP.ne_nil, hWP, hWQ]
        have hlen : v.length < n := by
          rw [← hn, ← hv, List.length_append]
          have := List.length_pos.2 hP.ne_nil
          omega
        have := ih v.length hlen v rfl sP sQ hs
        omega
      · rw [replaceAll_cons hpre, quoteWeightAux_cons, quoteWeightAux_cons]
        have hlen : cs.length < n := by rw [← hn]; simp
        have := ih cs.length hlen cs rfl (nextQ q c) (nextQ q' c) (nextQ_mono hq c)
        split <;> omega

/-- Replacing a part by its `%q` text lowers the weight as soon as one of the
occurrences replaced has fewer than two double quotes right before it. -/
theorem quoteWeightAux_replace_lt {part : List Char} (hP : PartShape part)
    {s : List Char} {o : Nat} (hch : Chosen part s o) :
    ∀ (q q' : Nat), q ≤ q' → quoteState q (s.take o) < 2 →
      quoteWeightAux q' (replaceAll s part (goQuote part)) < quoteWeightAux q s := by
  obtain ⟨K, sP, sQ, hs, hWP, hWQ, hSt⟩ := weight_part hP
  induction hch with
  | here v =>
    intro q q' hq hst
    rw [List.take_zero, quoteState_nil] at hst
    rw [replaceAll_append hP.ne_nil, hWP, hWQ]
    have := quoteWeightAux_replace_le hP v sP sQ hs
    omega
  | after v o _ ih =>
    intro q q' hq hst
    rw [List.take_append, quoteState_append, hSt] at hst
    rw [replaceAll_append hP.ne_nil, hWP, hWQ]
    have := ih sP sQ hs hst
    omega
  | next c cs o hpre _ ih =>
    intro q q' hq hst
    rw [List.take_succ_cons, quoteState_cons] at hst
    rw [replaceAll_cons hpre, quoteWeightAux_cons, quoteWeightAux_cons]
    have := ih (nextQ q c) (nextQ q' c) (nextQ_mono hq c) hst
    split <;> omega

theorem Chosen.isPrefix_drop {old s : List Char} {o : Nat} (h : Chosen old s o) :
    old <+: s.drop o := by
  induction h with
  | here v => exact List.prefix_append _ _
  | after v o _ ih => rw [List.drop_append]; exact ih
  | next c cs o _ _ ih => exact ih

/-- Every occurrence of `old` overlaps an occurrence that `strings.Replace`
takes, or is one. -/
theorem chosen_near {old : List Char} (hold : old ≠ []) :
    ∀ (s : List Char) (p : Nat), old <+: s.drop p →
      ∃ o, Chosen old s o ∧ o ≤ p ∧ p < o + old.length := by
  intro s
  generalize hn : s.length = n
  induction n using Nat.strong_induction_on generalizing s with
  | _ n ih =>
    intro p hp
    have hpos := List.length_pos.2 hold
    by_cases hpre : old <+: s
    · obtain ⟨v, hv⟩ := hpre
      by_cases hlt : p < old.length
      · exact ⟨0, hv ▸ Chosen.here v, Nat.zero_le _, by omega⟩
      · obtain ⟨p', rfl⟩ : ∃ p', p = old.length + p' := ⟨p - old.length, by omega⟩
        rw [← hv, List.drop_append] at hp
        have hlen : v.length < n := by
          rw [← hn, ← hv, List.length_append]; omega
        obtain ⟨o, ho, h1, h2⟩ := ih v.length hlen v rfl p' hp
        exact ⟨old.length + o, hv ▸ Chosen.after v o ho, by omega, by omega⟩
    · cases s with
      | nil =>
        rw [List.drop_nil] at hp
        exact absurd (List.prefix_nil.1 hp) hold
      | cons c cs =>
        cases p with
        | zero => exact absurd hp hpre
        | succ p' =>
          rw [List.drop_succ_cons] at hp
          have hlen : cs.length < n := by rw [← hn]; simp
          obtain ⟨o, ho, h1, h2⟩ := ih cs.length hlen cs rfl p' hp
          exact ⟨o + 1, Chosen.next c cs o hpre ho, by omega, by omega⟩

theorem Core.chars {b : List Char} (hb : Core b) : ∀ a ∈ b, a ≠ '"' ∧ a ≠ '\\' := by
  have hset : ∀ a, isSetChar a = true → a ≠ '"' ∧ a ≠ '\\' :=
    fun a h => ⟨isSetChar_ne_quote h, isSetChar_ne_backslash h⟩
  have hid : ∀ a, isIdentChar a = true → a ≠ '"' ∧ a ≠ '\\' :=
    fun a h => hset a (isIdentChar_isSetChar h)
  have htail : ∀ t, TailCore t → ∀ a ∈ t, a ≠ '"' ∧ a ≠ '\\' := by
    rintro t ⟨r, z, hr, hz, rfl⟩ a ha
    rcases List.mem_append.1 ha with ha | ha
    · exact hid a (hr a ha)
    · rw [List.mem_singleton.1 ha]; exact hid z (isIdentEdge_isIdentChar hz)
  obtain ⟨c, hc, ⟨t, ht, rfl⟩ | ⟨r1, g, t, hr1, hg, ht, rfl⟩⟩ := hb
  · intro a ha
    rcases List.mem_cons.1 ha with rfl | ha
    · exact hid _ (isIdentEdge_isIdentChar hc)
    · exact htail t ht a ha
  · intro a ha
    rcases List.mem_cons.1 ha with rfl | ha
    · exact hid _ (isIdentEdge_isIdentChar hc)
    rcases List.mem_append.1 ha with ha | ha
    · exact hid a (hr1 a ha)
    rcases List.mem_cons.1 ha with rfl | ha
    · exact ⟨by decide, by decide⟩
    rcases List.mem_append.1 ha with ha | ha
    · exact hset a (hg a ha)
    rcases List.mem_cons.1 ha with rfl | ha
    · exact ⟨by decide, by decide⟩
    · exact htail t ht a ha

theorem Core.head {b : List Char} (hb : Core b) :
    ∃ c m, b = c :: m ∧ isIdentEdge c = true ∧ m ≠ [] := by
  obtain ⟨c, hc, ⟨t, ⟨r, z, _, _, rfl⟩, rfl⟩ | ⟨r1, g, t, _, _, _, rfl⟩⟩ := hb
  · exact ⟨c, _, rfl, hc, by simp⟩
  · exact ⟨c, _, rfl, hc, by simp⟩

theorem Core.partShape {b q2 : List Char} (hb : Core b) (hq2 : q2 = [] ∨ q2 = ['"']) :
    PartShape (b ++ q2) := by
  obtain ⟨c, m, rfl, hc, _⟩ := hb.head
  exact ⟨c, m, q2, hc, fun a ha => hb.chars a (List.mem_cons_of_mem _ ha), hq2, rfl⟩

theorem matchLen_nil : matchLen [] = none := by
  rw [matchLen_eq]; rfl

/-- The form of a match: a text of the pattern's form between two optional
double quotes. -/
theorem matchLen_shape {w : List Char} {n : Nat} (h : matchLen w = some n) :
    ∃ q1 b q2 rest, (q1 = [] ∨ q1 = ['"']) ∧ Core b ∧ (q2 = [] ∨ q2 = ['"']) ∧
      w = (q1 ++ (b ++ q2)) ++ rest ∧ n = (q1 ++ (b ++ q2)).length := by
  rw [matchLen_eq] at h
  obtain ⟨rest, hrest, hn⟩ := Option.map_eq_some'.1 h
  have key : ∀ y, bodyRest y = some rest → ∃ b q2, Core b ∧ (q2 = [] ∨ q2 = ['"']) ∧
      y = (b ++ q2) ++ rest := by
    intro y hy
    obtain ⟨b, hb, hy | hy⟩ := bodyRest_some hy
    · exact ⟨b, [], hb, Or.inl rfl, by simpa using hy⟩
    · exact ⟨b, ['"'], hb, Or.inr rfl, by simpa using hy⟩
  cases w with
  | nil => cases hrest
  | cons c cs =>
    by_cases hc : c = '"'
    · subst hc
      rw [tokenRest_quote] at hrest
      obtain ⟨b, q2, hb, hq2, hy⟩ := key cs hrest
      refine ⟨['"'], b, q2, rest, Or.inr rfl, hb, hq2, by rw [hy]; simp, ?_⟩
      rw [← hn, hy]
      simp only [List.length_append, List.length_cons, List.length_nil]
      omega
    · rw [tokenRest_of_ne hc] at hrest
      obtain ⟨b, q2, hb, hq2, hy⟩ := key (c :: cs) hrest
      refine ⟨[], b, q2, rest, Or.inl rfl, hb, hq2, by rw [hy]; simp, ?_⟩
      rw [← hn, hy]
      simp only [List.length_append, List.length_cons, List.length_nil]
      omega

theorem matchLen_quote_cons {c : Char} {cs : List Char} {n : Nat} (hc : c ≠ '"')
    (h : matchLen (c :: cs) = some n) : matchLen ('"' :: c :: cs) = some (n + 1) := by
  rw [matchLen_eq] at h ⊢
  rw [tokenRest_quote, ← tokenRest_of_ne hc]
  obtain ⟨rest, hrest, hn⟩ := Option.map_eq_some'.1 h
  rw [hrest]
  have hlt : rest.length < (c :: cs).length := by
    rw [tokenRest_of_ne hc] at hrest
    obtain ⟨b, hb, hy | hy⟩ := bodyRest_some hrest
    · have h1 := congrArg List.length hy
      simp only [List.length_append, List.length_cons] at h1
      obtain ⟨c1, m1, rfl, _, _⟩ := hb.head
      simp only [List.length_cons] at h1 ⊢
      omega
    · have h1 := congrArg List.length hy
      simp only [List.length_append, List.length_cons] at h1
      simp only [List.length_cons]
      omega
  simp only [Option.map_some', List.length_cons] at hn ⊢
  simp only [List.length_cons] at hlt
  congr 1
  omega

/-- A text of the pattern's form, with or without a closing double quote, is
matched whatever follows it, by a match at least as long. -/
theorem matchLen_extend {b q2 : List Char} (hb : Core b) (hq2 : q2 = [] ∨ q2 = ['"'])
    (v : List Char) :
    ∃ n, matchLen ((b ++ q2) ++ v) = some n ∧ (b ++ q2).length ≤ n := by
  obtain ⟨rest, hrest, hlen⟩ := bodyRest_extend hb (q2 ++ v)
  obtain ⟨c, m, hbm, hc, _⟩ := hb.head
  have htok : tokenRest ((b ++ q2) ++ v) = some rest := by
    rw [List.append_assoc, hbm, List.cons_append, tokenRest_of_ne (isIdentEdge_ne_quote hc),
      ← List.cons_append, ← hbm]
    exact hrest
  refine ⟨((b ++ q2) ++ v).length - rest.length, by rw [matchLen_eq, htok]; rfl, ?_⟩
  have h2 : rest.length ≤ v.length := by
    rcases hq2 with rfl | rfl
    · exact le_trans hlen (by simpa using dropQuote_length_le v)
    · simpa [dropQuote] using hlen
  simp only [List.length_append] at *
  omega

/-- No match holds two double quotes in a row. -/
theorem matchLen_no_quote_pair {w : List Char} {n : Nat} (h : matchLen w = some n) :
    ¬ ['"', '"'] <:+: w.take n := by
  obtain ⟨q1, b, q2, rest, hq1, hb, hq2, hw, hn⟩ := matchLen_shape h
  have htake : w.take n = q1 ++ (b ++ q2) := by
    rw [hw, hn, List.take_left']
    rfl
  rw [htake]
  intro hinf
  let R : Char → Char → Prop := fun x y => x ≠ '"' ∨ y ≠ '"'
  have hplain : ∀ l : List Char, (∀ a ∈ l, a ≠ '"') → List.Chain' R l := by
    intro l
    induction l with
    | nil => intro _; exact List.chain'_nil
    | cons a l ih =>
      intro hl
      rw [List.chain'_cons']
      exact ⟨fun y _ => Or.inl (hl a (List.mem_cons_self _ _)),
        ih (fun x hx => hl x (List.mem_cons_of_mem _ hx))⟩
  have hbq : ∀ a ∈ b, a ≠ '"' := fun a ha => (hb.chars a ha).1
  obtain ⟨c, m, hbm, hc, _⟩ := hb.head
  have h1 : List.Chain' R (b ++ q2) := by
    apply List.Chain'.append (hplain b hbq)
    · rcases hq2 with rfl | rfl
      · exact List.chain'_nil
      · exact List.chain'_singleton _
    · intro x hx y _
      exact Or.inl (hbq x (List.mem_of_mem_getLast? hx))
  have h2 : List.Chain' R (q1 ++ (b ++ q2)) := by
    apply List.Chain'.append _ h1
    · intro x _ y hy
      rw [hbm] at hy
      simp at hy
      subst hy
      exact Or.inr (isIdentEdge_ne_quote hc)
    · rcases hq1 with rfl | rfl
      · exact List.chain'_nil
      · exact List.chain'_singleton _
  have h3 := h2.infix hinf
  rw [List.chain'_pair] at h3
  rcases h3 with h3 | h3 <;> exact h3 rfl

theorem scanSkip_zero (sk : Nat) (s : List Char) : scanSkip sk s 0 = sk := by
  cases s <;> cases sk <;> rfl

theorem scanSkip_nil (sk k : Nat) : scanSkip sk [] (k + 1) = 0 := by
  cases sk <;> rfl

theorem scanSkip_skip (sk : Nat) (c : Char) (cs : List Char) (k : Nat) :
    scanSkip (sk + 1) (c :: cs) (k + 1) = scanSkip sk cs k := rfl

theorem scanSkip_free (c : Char) (cs : List Char) (k : Nat) :
    scanSkip 0 (c :: cs) (k + 1) =
      match matchLen (c :: cs) with
      | some n => scanSkip (n - 1) cs k
      | none => scanSkip 0 cs k := rfl

theorem findAllAux_nil (sk : Nat) : findAllAux sk [] = [] := by
  cases sk <;> rfl

/-- A part delivered by the scan was matched at an index where the pattern
was tried. -/
theorem findAllAux_mem_scan {P : List Char} :
    ∀ (s : List Char) (sk : Nat), P ∈ findAllAux sk s →
      ∃ k n, scanSkip sk s k = 0 ∧ matchLen (s.drop k) = some n ∧ P = (s.drop k).take n := by
  intro s
  induction s with
  | nil => intro sk h; rw [findAllAux_nil] at h; cases h
  | cons c cs ih =>
    intro sk h
    cases sk with
    | succ sk =>
      obtain ⟨k, n, h1, h2, h3⟩ := ih sk h
      exact ⟨k + 1, n, h1, h2, h3⟩
    | zero =>
      rw [findAllAux] at h
      cases hm : matchLen (c :: cs) with
      | some n =>
        rw [hm] at h
        rcases List.mem_cons.1 h with h | h
        · exact ⟨0, n, rfl, hm, h⟩
        · obtain ⟨k, n', h1, h2, h3⟩ := ih (n - 1) h
          exact ⟨k + 1, n', by rw [scanSkip_free, hm]; exact h1, h2, h3⟩
      | none =>
        rw [hm] at h
        obtain ⟨k, n', h1, h2, h3⟩ := ih 0 h
        exact ⟨k + 1, n', by rw [scanSkip_free, hm]; exact h1, h2, h3⟩

theorem scanSkip_countdown :
    ∀ (e : Nat) (cs : List Char) (m : Nat), e ≤ m → e ≤ cs.length →
      scanSkip m cs e = m - e := by
  intro e
  induction e with
  | zero => intro cs m _ _; rw [scanSkip_zero]; rfl
  | succ e ih =>
    intro cs m hm hl
    cases cs with
    | nil => simp at hl
    | cons c cs =>
      cases m with
      | zero => omega
      | succ m =>
        rw [scanSkip_skip, ih cs m (by omega) (by simpa using hl)]
        omega

theorem scanSkip_shift :
    ∀ (j : Nat) (s : List Char) (sk d : Nat), j ≤ s.length →
      scanSkip sk s (j + d) = scanSkip (scanSkip sk s j) (s.drop j) d := by
  intro j
  induction j with
  | zero => intro s sk d _; rw [scanSkip_zero]; simp
  | succ j ih =>
    intro s sk d hl
    cases s with
    | nil => simp at hl
    | cons c cs =>
      have hl' : j ≤ cs.length := by simpa using hl
      have hjd : j + 1 + d = (j + d) + 1 := by omega
      rw [hjd, List.drop_succ_cons]
      cases sk with
      | succ sk => rw [scanSkip_skip, scanSkip_skip, ih cs sk d hl']
      | zero =>
        rw [scanSkip_free, scanSkip_free]
        cases matchLen (c :: cs) with
        | some n => exact ih cs (n - 1) d hl'
        | none => exact ih cs 0 d hl'

theorem matchLen_le_length {w : List Char} {n : Nat} (h : matchLen w = some n) :
    n ≤ w.length := by
  obtain ⟨q1, b, q2, rest, _, _, _, hw, hn⟩ := matchLen_shape h
  rw [hn]
  conv_rhs => rw [hw, List.length_append]
  omega

/-- Inside a match the pattern is not tried again. -/
theorem scanSkip_inside {s : List Char} {sk j n d : Nat} (hj : j ≤ s.length)
    (hfree : scanSkip sk s j = 0) (hm : matchLen (s.drop j) = some n)
    (hd : 0 < d) (hdn : d < n) : scanSkip sk s (j + d) = n - d := by
  rw [scanSkip_shift j s sk d hj, hfree]
  have hle := matchLen_le_length hm
  cases hdrop : s.drop j with
  | nil => rw [hdrop] at hle; simp at hle; omega
  | cons c cs =>
    rw [hdrop] at hm hle
    obtain ⟨d', rfl⟩ : ∃ d', d = d' + 1 := ⟨d - 1, by omega⟩
    rw [scanSkip_free, hm]
    simp only [List.length_cons] at hle
    show scanSkip (n - 1) cs d' = n - (d' + 1)
    rw [scanSkip_countdown d' cs (n - 1) (by omega) (by omega)]
    omega

/-- A positive skip counter was set by a match that started earlier. -/
theorem scanSkip_origin :
    ∀ (s : List Char) (sk i m : Nat), scanSkip sk s i = m + 1 →
      sk = m + 1 + i ∨
      ∃ j n, j < i ∧ scanSkip sk s j = 0 ∧ matchLen (s.drop j) = some n ∧
        n = (i - j) + m + 1 := by
  intro s
  induction s with
  | nil =>
    intro sk i m h
    cases i with
    | zero => rw [scanSkip_zero] at h; left; omega
    | succ i => rw [scanSkip_nil] at h; omega
  | cons c cs ih =>
    intro sk i m h
    cases i with
    | zero => rw [scanSkip_zero] at h; left; omega
    | succ i =>
      cases sk with
      | succ sk =>
        rw [scanSkip_skip] at h
        rcases ih sk i m h with h1 | ⟨j, n, h1, h2, h3, h4⟩
        · left; omega
        · right
          exact ⟨j + 1, n, by omega, by rw [scanSkip_skip]; exact h2, h3, by omega⟩
      | zero =>
        right
        rw [scanSkip_free] at h
        cases hm : matchLen (c :: cs) with
        | some n0 =>
          rw [hm] at h
          rcases ih (n0 - 1) i m h with h1 | ⟨j, n, h1, h2, h3, h4⟩
          · exact ⟨0, n0, by omega, rfl, hm, by omega⟩
          · exact ⟨j + 1, n, by omega, by rw [scanSkip_free, hm]; exact h2, h3, by omega⟩
        | none =>
          rw [hm] at h
          rcases ih 0 i m h with h1 | ⟨j, n, h1, h2, h3, h4⟩
          · omega
          · exact ⟨j + 1, n, by omega, by rw [scanSkip_free, hm]; exact h2, h3, by omega⟩

theorem quoteState_ge_one {t : List Char} (h : 1 ≤ quoteState 0 t) :
    ∃ u, t = u ++ ['"'] := by
  induction t using List.reverseRecOn with
  | nil => simp [quoteState_nil] at h
  | append_singleton u c _ =>
    by_cases hc : c = '"'
    · exact ⟨u, by rw [hc]⟩
    · rw [quoteState_append, quoteState_cons, quoteState_nil, nextQ_of_ne hc] at h
      omega

theorem quoteState_ge_two {t : List Char} (h : 2 ≤ quoteState 0 t) :
    ∃ u, t = u ++ ['"', '"'] := by
  induction t using List.reverseRecOn with
  | nil => simp [quoteState_nil] at h
  | append_singleton u c _ =>
    by_cases hc : c = '"'
    · subst hc
      rw [quoteState_append, quoteState_cons, quoteState_nil] at h
      have h1 : 1 ≤ quoteState 0 u := by
        unfold nextQ at h
        simp only [if_true] at h
        omega
      obtain ⟨u', rfl⟩ := quoteState_ge_one h1
      exact ⟨u', by simp⟩
    · rw [quoteState_append, quoteState_cons, quoteState_nil, nextQ_of_ne hc] at h
      omega

/-- The part that `quoteIdentifiers` substitutes is a match, found at an index
where the pattern was tried, of the form of `PartShape`. -/
theorem firstPart_scan {s P : List Char} (h : firstPart s = some P) :
    ∃ p b q2, scanSkip 0 s p = 0 ∧ matchLen (s.drop p) = some P.length ∧ Core b ∧
      (q2 = [] ∨ q2 = ['"']) ∧ P = b ++ q2 ∧ P <+: s.drop p ∧ containsDot P = true := by
  unfold firstPart at h
  have hq := List.find?_some h
  have hmem := List.mem_of_find?_eq_some h
  obtain ⟨p, n, hfree, hm, hP⟩ := findAllAux_mem_scan s 0 hmem
  obtain ⟨q1, b, q2, rest, hq1, hb, hq2, hw, hn⟩ := matchLen_shape hm
  have htake : P = q1 ++ (b ++ q2) := by
    rw [hP, hw, hn, List.take_left']
    rfl
  simp only [Bool.and_eq_true, Bool.not_eq_true'] at hq
  have hq1nil : q1 = [] := by
    rcases hq1 with rfl | rfl
    · rfl
    · rw [htake] at hq
      exact absurd hq.2 (by simp [hasQuotePrefix])
  subst hq1nil
  rw [List.nil_append] at htake hw hn
  refine ⟨p, b, q2, hfree, ?_, hb, hq2, htake, ?_, hq.1⟩
  · rw [hm, htake, hn]
  · rw [hw, htake]; exact List.prefix_append _ _

/-- Each pass of `quoteIdentifiers` that substitutes lowers the weight of the
target. -/
theorem quoteWeight_replace_lt {s P : List Char} (h : firstPart s = some P) :
    quoteWeight (replaceAll s P (goQuote P)) < quoteWeight s := by
  obtain ⟨p, b, q2, hfree, hm, hb, hq2, hPb, hpre, _⟩ := firstPart_scan h
  have hPS : PartShape P := hPb ▸ hb.partShape hq2
  have hPne := hPS.ne_nil
  have hPpos := List.length_pos.2 hPne
  obtain ⟨o, hch, hop, hpo⟩ := chosen_near hPne s p hpre
  refine quoteWeightAux_replace_lt hPS hch 0 0 (le_refl 0) ?_
  by_contra hge
  obtain ⟨u, hu⟩ := quoteState_ge_two (Nat.le_of_not_lt hge)
  obtain ⟨v, hv⟩ := hch.isPrefix_drop
  have hs : s = u ++ '"' :: '"' :: (P ++ v) := by
    rw [← List.take_append_drop o s, hu, ← hv]; simp
  have hulen : o = u.length + 2 := by
    have h1 := congrArg List.length hu
    have h2 : (s.drop o).length ≠ 0 := by
      rw [← hv, List.length_append]; omega
    rw [List.length_take, List.length_append] at h1
    rw [List.length_drop] at h2
    simp only [List.length_cons, List.length_nil] at h1
    omega
  have hslen : s.length = u.length + 2 + (P ++ v).length := by
    rw [hs]; simp only [List.length_append, List.length_cons]; omega
  obtain ⟨n', hn', hPn'⟩ : ∃ n', matchLen (P ++ v) = some n' ∧ P.length ≤ n' := by
    rw [hPb]; exact matchLen_extend hb hq2 v
  obtain ⟨c, m, hbm, hc, _⟩ := hb.head
  have hquote : matchLen ('"' :: (P ++ v)) = some (n' + 1) := by
    have hPv : P ++ v = c :: (m ++ q2 ++ v) := by rw [hPb, hbm]; simp
    rw [hPv] at hn' ⊢
    exact matchLen_quote_cons (isIdentEdge_ne_quote hc) hn'
  have hdropi : s.drop (u.length + 1) = '"' :: (P ++ v) := by
    rw [hs]
    have : u ++ '"' :: '"' :: (P ++ v) = (u ++ ['"']) ++ '"' :: (P ++ v) := by simp
    rw [this]
    exact List.drop_left' (by simp)
  cases hsk : scanSkip 0 s (u.length + 1) with
  | zero =>
    have hin := scanSkip_inside (d := p - (u.length + 1)) (by omega) hsk
      (hdropi ▸ hquote) (by omega) (by omega)
    have hp : u.length + 1 + (p - (u.length + 1)) = p := by omega
    rw [hp, hfree] at hin
    omega
  | succ k =>
    rcases scanSkip_origin s 0 (u.length + 1) k hsk with h0 | ⟨j, n, hj, hjfree, hjm, hjn⟩
    · omega
    · apply matchLen_no_quote_pair hjm
      have hju : j ≤ u.length := by omega
      have hdropj : s.drop j = u.drop j ++ '"' :: '"' :: (P ++ v) := by
        rw [hs]; exact List.drop_append_of_le_length hju
      have hn2 : n = (u.drop j).length + 2 + (n - ((u.drop j).length + 2)) := by
        rw [List.length_drop]; omega
      rw [hdropj, List.take_append_eq_append_take,
        List.take_of_length_le (by rw [List.length_drop]; omega)]
      have hn3 : n - (u.drop j).length = (n - ((u.drop j).length + 2)) + 2 := by
        rw [List.length_drop]; omega
      rw [hn3]
      exact ⟨u.drop j, List.take (n - ((u.drop j).length + 2)) (P ++ v), by simp⟩

/-- The recursion of `quoteIdentifiers` ends: with more passes allowed than
the weight of the target, a result comes out, and no part of the result
qualifies for substitution. -/
theorem quoteIdentifiersFuel_terminates :
    ∀ (fuel : Nat) (s : List Char), quoteWeight s < fuel →
      ∃ r, quoteIdentifiersFuel fuel s = some r ∧ firstPart r = none := by
  intro fuel
  induction fuel with
  | zero => intro s h; omega
  | succ fuel ih =>
    intro s h
    rw [quoteIdentifiersFuel]
    cases hf : firstPart s with
    | none => exact ⟨s, rfl, hf⟩
    | some P =>
      have := quoteWeight_replace_lt hf
      exact ih _ (by omega)

theorem quoteIdentifiersFuel_mono {fuel : Nat} {s r : List Char}
    (h : quoteIdentifiersFuel fuel s = some r) :
    ∀ fuel', fuel ≤ fuel' → quoteIdentifiersFuel fuel' s = some r := by
  induction fuel generalizing s with
  | zero => rw [quoteIdentifiersFuel] at h; cases h
  | succ fuel ih =>
    intro fuel' hle
    obtain ⟨k, rfl⟩ : ∃ k, fuel' = k + 1 := ⟨fuel' - 1, by omega⟩
    rw [quoteIdentifiersFuel] at h ⊢
    cases hf : firstPart s with
    | none => rw [hf] at h; exact h
    | some P =>
      rw [hf] at h
      exact ih h k (by omega)

/-- The result of `quoteIdentifiersChars` is the result of the recursion of
the source, whatever number of passes brings it out. -/
theorem quoteIdentifiersChars_eq_of_fuel (fuel : Nat) {s r : List Char}
    (h : quoteIdentifiersFuel fuel s = some r) : quoteIdentifiersChars s = r := by
  obtain ⟨r', hr', _⟩ := quoteIdentifiersFuel_terminates (quoteWeight s + 1) s (by omega)
  have h1 := quoteIdentifiersFuel_mono h (max fuel (quoteWeight s + 1)) (le_max_left _ _)
  have h2 := quoteIdentifiersFuel_mono hr' (max fuel (quoteWeight s + 1)) (le_max_right _ _)
  rw [h1] at h2
  cases h2
  unfold quoteIdentifiersChars
  rw [hr']

/-- The equation of the source: without a qualifying part the target is
returned, and otherwise the function is applied again to the target with the
part replaced by its `%q` text. -/
theorem quoteIdentifiersChars_unfold (s : List Char) :
    quoteIdentifiersChars s =
      match firstPart s with
      | none => s
      | some part => quoteIdentifiersChars (replaceAll s part (goQuote part)) := by
  cases hf : firstPart s with
  | none =>
    show quoteIdentifiersChars s = s
    apply quoteIdentifiersChars_eq_of_fuel 1
    rw [quoteIdentifiersFuel, hf]
  | some P =>
    obtain ⟨r, hr, _⟩ := quoteIdentifiersFuel_terminates
      (quoteWeight (replaceAll s P (goQuote P)) + 1) (replaceAll s P (goQuote P)) (by omega)
    show quoteIdentifiersChars s = quoteIdentifiersChars (replaceAll s P (goQuote P))
    rw [quoteIdentifiersChars_eq_of_fuel _ hr]
    apply quoteIdentifiersChars_eq_of_fuel
      (quoteWeight (replaceAll s P (goQuote P)) + 1 + 1)
    rw [quoteIdentifiersFuel, hf]
    exact hr

theorem firstPart_quoteIdentifiersChars (s : List Char) :
    firstPart (quoteIdentifiersChars s) = none := by
  obtain ⟨r, hr, hnone⟩ := quoteIdentifiersFuel_terminates (quoteWeight s + 1) s (by omega)
  rw [quoteIdentifiersChars_eq_of_fuel _ hr]
  exact hnone

/-! ## The recursion of `quoteIdentifiers` on plain paths -/

theorem findAllAux_skip_all : ∀ (cs : List Char) (k : Nat), cs.length ≤ k →
    findAllAux k cs = [] := by
  intro cs
  induction cs with
  | nil => intro k _; exact findAllAux_nil k
  | cons c cs ih =>
    intro k hk
    cases k with
    | zero => simp at hk
    | succ k => rw [findAllAux]; exact ih k (by simpa using hk)

/-- A text that the pattern matches whole is the only part found in it. -/
theorem findAll_whole {w : List Char} (h : matchLen w = some w.length) :
    findAll w = [w] := by
  cases w with
  | nil => rw [matchLen_nil] at h; cases h
  | cons c cs =>
    unfold findAll
    rw [findAllAux, h]
    simp only [List.length_cons, Nat.add_sub_cancel]
    rw [findAllAux_skip_all cs cs.length (le_refl _)]
    simp

theorem matchLen_core {b q2 : List Char} (hb : Core b) (hq2 : q2 = [] ∨ q2 = ['"']) :
    matchLen (b ++ q2) = some (b ++ q2).length := by
  obtain ⟨n, hn, hle⟩ := matchLen_extend hb hq2 []
  rw [List.append_nil] at hn
  have := matchLen_le_length hn
  rw [hn]
  congr 1
  omega

theorem matchLen_quoted_core {b : List Char} (hb : Core b) :
    matchLen ('"' :: (b ++ ['"'])) = some ('"' :: (b ++ ['"'])).length := by
  obtain ⟨c, m, hbm, hc, _⟩ := hb.head
  have h := matchLen_core hb (Or.inr rfl)
  rw [hbm, List.cons_append] at h
  have h2 := matchLen_quote_cons (isIdentEdge_ne_quote hc) h
  rw [hbm, List.cons_append]
  exact h2

/-- A text of the pattern's form that holds a dot is wrapped once in double
quotes by `quoteIdentifiers`, whatever else is in it. -/
theorem quoteIdentifiersChars_core {b : List Char} (hb : Core b)
    (hdot : containsDot b = true) :
    quoteIdentifiersChars b = '"' :: (b ++ ['"']) := by
  obtain ⟨c, m, hbm, hc, _⟩ := hb.head
  have hmatch : matchLen b = some b.length := by
    simpa using matchLen_core hb (Or.inl rfl)
  have hfirst : firstPart b = some b := by
    unfold firstPart
    rw [findAll_whole hmatch]
    have hq : hasQuotePrefix b = false := by
      rw [hbm]
      unfold hasQuotePrefix
      split
      · next h => simp at h; exact absurd h.1 (isIdentEdge_ne_quote hc)
      · rfl
    simp [hdot, hq]
  have hquote : goQuote b = '"' :: (b ++ ['"']) := by
    unfold goQuote
    rw [escapeChars_plain hb.chars]
    rfl
  have hrep : replaceAll b b (goQuote b) = '"' :: (b ++ ['"']) := by
    have h := @replaceAll_append b (by rw [hbm]; simp) (goQuote b) []
    rw [List.append_nil, replaceAll_nil, List.append_nil] at h
    rw [h, hquote]
  have hfirst2 : firstPart ('"' :: (b ++ ['"'])) = none := by
    unfold firstPart
    rw [findAll_whole (matchLen_quoted_core hb)]
    simp [hasQuotePrefix]
  rw [quoteIdentifiersChars_unfold, hfirst]
  show quoteIdentifiersChars (replaceAll b b (goQuote b)) = _
  rw [hrep, quoteIdentifiersChars_unfold, hfirst2]

/-- Claim C6. A metric path with one brace group: a character of `[\w*]`, a
run of `[\w\-.*]`, a group `{...}` of characters of `[\w\-.*,]`, another run
of `[\w\-.*]` and a last character of `[\w*]`. If the path holds a dot,
`quoteIdentifiers` returns the whole path between two double quotes, the
group and its commas unchanged. -/
theorem quoteIdentifiers_brace_group (c z : Char) (r1 g r2 : List Char)
    (hc : isIdentEdge c = true) (hr1 : ∀ a ∈ r1, isIdentChar a = true)
    (hg : ∀ a ∈ g, isSetChar a = true) (hr2 : ∀ a ∈ r2, isIdentChar a = true)
    (hz : isIdentEdge z = true)
    (hdot : '.' ∈ c :: (r1 ++ '{' :: (g ++ '}' :: (r2 ++ [z])))) :
    quoteIdentifiers (String.mk (c :: (r1 ++ '{' :: (g ++ '}' :: (r2 ++ [z]))))) =
      String.mk ('"' :: (c :: (r1 ++ '{' :: (g ++ '}' :: (r2 ++ [z]))) ++ ['"'])) := by
  have hb : Core (c :: (r1 ++ '{' :: (g ++ '}' :: (r2 ++ [z])))) :=
    ⟨c, hc, Or.inr ⟨r1, g, r2 ++ [z], hr1, hg, ⟨r2, z, hr2, hz, rfl⟩, rfl⟩⟩
  unfold quoteIdentifiers
  rw [quoteIdentifiersChars_core hb (by simpa [containsDot] using hdot)]

theorem quoteIdentifiers_brace_group_witness :
    quoteIdentifiers "host.\x7bweb,db\x7d.cpu" = "\"host.\x7bweb,db\x7d.cpu\"" :=
  quoteIdentifiers_brace_group 'h' 'u' ['o', 's', 't', '.'] ['w', 'e', 'b', ',', 'd', 'b']
    ['.', 'c', 'p'] (by decide) (by decide) (by decide) (by decide) (by decide) (by decide)

/-! ## Times whose counters do not overflow -/

/-- An integer in the range of `int64` is its own `int64` value. -/
theorem wrapInt64_of_range {i : Int} (h1 : -(2 ^ 63) ≤ i) (h2 : i < 2 ^ 63) :
    wrapInt64 i = i := by
  unfold wrapInt64
  omega

/-- The range of `Time.inRange`, with the floor division of the seconds. -/
theorem Time.inRange_iff (t : Time) :
    t.inRange = true ↔
      -(2 ^ 63) ≤ t.unixNano / 1000000000 ∧ t.unixNano / 1000000000 + 62135596800 < 2 ^ 63 := by
  unfold Time.inRange unixToInternal
  rw [Int.fdiv_eq_ediv _ (by decide)]
  simp only [Bool.and_eq_true, decide_eq_true_eq]

/-- On a time in range `Unix` is the floor of the seconds since the epoch. -/
theorem Time.Unix_of_inRange {t : Time} (ht : t.inRange = true) :
    t.Unix = t.unixNano / 1000000000 := by
  rw [Time.inRange_iff] at ht
  unfold Time.Unix Time.ext wrapInt64 unixToInternal
  rw [Int.fdiv_eq_ediv _ (by decide)]
  omega

/-- The split of a duration into seconds and nanoseconds, both rounded
towards zero. -/
theorem tdiv_tmod_bounds (d : Int) :
    1000000000 * d.tdiv 1000000000 + d.tmod 1000000000 = d ∧
    -1000000000 < d.tmod 1000000000 ∧ d.tmod 1000000000 < 1000000000 := by
  refine ⟨Int.tdiv_add_tmod d 1000000000, ?_, Int.tmod_lt_of_pos d (by decide)⟩
  cases d with
  | ofNat n =>
    have h : 0 ≤ (Int.ofNat n).tmod 1000000000 :=
      Int.tmod_nonneg 1000000000 (Int.ofNat_nonneg n)
    omega
  | negSucc n =>
    have h : (Int.negSucc n).tmod 1000000000 = -(((n + 1) % 1000000000 : Nat) : Int) := rfl
    rw [h]
    omega

/-- The method `addSec` is the plain sum when the sum fits an `int64`. -/
theorem addSec_of_range {ext d : Int} (h1 : -(2 ^ 63) ≤ ext + d) (h2 : ext + d < 2 ^ 63) :
    addSec ext d = ext + d := by
  unfold addSec
  simp only [wrapInt64_of_range h1 h2]
  rw [if_pos]
  simp

/-- When a time and its sum with a duration are in range, `Add` is the sum
of the nanoseconds. -/
theorem Time.Add_of_inRange {t : Time} {d : Duration} (ht : t.inRange = true)
    (hs : (Time.mk (t.unixNano + d)).inRange = true) :
    t.Add d = ⟨t.unixNano + d⟩ := by
  rw [Time.inRange_iff] at ht hs
  obtain ⟨hq, hr1, hr2⟩ := tdiv_tmod_bounds d
  have hext : t.ext = t.unixNano / 1000000000 + 62135596800 := by
    unfold Time.ext wrapInt64 unixToInternal
    rw [Int.fdiv_eq_ediv _ (by decide)]
    omega
  have hnsec : t.nsec = t.unixNano % 1000000000 := by
    unfold Time.nsec
    exact Int.fmod_eq_emod _ (by decide)
  dsimp only at hs
  unfold Time.Add
  simp only [hext, hnsec]
  generalize d.tdiv 1000000000 = q at *
  generalize d.tmod 1000000000 = r at *
  split
  · rw [addSec_of_range (by omega) (by omega)]
    unfold Time.ofParts unixToInternal
    congr 1
    omega
  · split
    · rw [addSec_of_range (by omega) (by omega)]
      unfold Time.ofParts unixToInternal
      congr 1
      omega
    · rw [addSec_of_range (by omega) (by omega)]
      unfold Time.ofParts unixToInternal
      congr 1
      omega

/-- The timestamp of a point when its time and the time less the step are in
range: the floor of the seconds of the difference. -/
theorem pointTs_of_inRange {step : Duration} {t : Time} (ht : t.inRange = true)
    (hs : (Time.mk (t.unixNano + wrapInt64 (-step))).inRange = true) :
    pointTs step t = (t.unixNano + wrapInt64 (-step)) / 1000000000 := by
  unfold pointTs
  rw [Time.Add_of_inRange ht hs, Time.Unix_of_inRange hs]

/-- The seconds of `time.Unix(sec, 0)` read back by `Unix` are `sec` in
`int64`, also where the counter from year 1 has wrapped. -/
theorem Time.Unix_ofUnix (sec : Int) : (Time.ofUnix sec).Unix = wrapInt64 sec := by
  unfold Time.Unix Time.ext Time.ofUnix wrapInt64 unixToInternal
  rw [Int.fdiv_eq_ediv _ (by decide), Int.mul_ediv_cancel _ (by decide)]
  omega

/-- Among times in range, a later time has a later timestamp, the step being
the same. -/
theorem pointTs_mono_of_inRange {step : Duration} {a b : Time}
    (ha : a.inRange = true) (has : (Time.mk (a.unixNano + wrapInt64 (-step))).inRange = true)
    (hb : b.inRange = true) (hbs : (Time.mk (b.unixNano + wrapInt64 (-step))).inRange = true)
    (h : a.unixNano ≤ b.unixNano) :
    pointTs step a ≤ pointTs step b := by
  rw [pointTs_of_inRange ha has, pointTs_of_inRange hb hbs]
  exact Int.ediv_le_ediv (by decide) (by omega)

/-- The timestamp of the earliest time of package `time` counted from the
Unix epoch, with a step of 60 seconds: the subtraction leaves the range of
`Unix`, whose `int64` result is large and positive. -/
theorem pointTs_wraps :
    pointTs 60000000000 (Time.ofUnix (-9223372036854775808)) = 9223372036854775748 := by
  decide

/-! ## The render handler -/

theorem entry_ne_comma (a b : String) : (a ++ b ++ "]" = ",") = False := by
  apply eq_false
  intro h
  have h2 := congrArg (fun s => s.data.getLast?) h
  simp only [String.data_append] at h2
  simp at h2

/-- The entries `renderPoints` writes, the separating commas left out: one
for each point whose timestamp is positive, in order. -/
theorem renderPoints_entries (env : Env) (step : Duration) :
    ∀ (pts : List (Time × Float64)) (n : Nat),
      (renderPoints env step n pts).filter (fun w => decide (w ≠ ",")) =
        (pts.filter (fun p => decide (0 < pointTs step p.1))).map
          (fun p =>
            if p.2.IsNaN || p.2.IsInf 0 then "[null, " ++ fmtInt (pointTs step p.1) ++ "]"
            else "[" ++ env.fmtFloat p.2 ++ ", " ++ fmtInt (pointTs step p.1) ++ "]") := by
  intro pts
  induction pts with
  | nil => intro n; rfl
  | cons p rest ih =>
    intro n
    obtain ⟨t, value⟩ := p
    rw [renderPoints]
    have hcomma : (if n > 0 then [","] else []).filter (fun w => decide (w ≠ ",")) = [] := by
      split <;> simp
    rw [List.filter_append, hcomma, List.nil_append]
    by_cases hts : pointTs step t > 0
    · simp only [hts, if_true]
      rw [List.filter_append, ih (n + 1)]
      rw [List.filter_cons_of_pos (by simpa using hts), List.map_cons]
      by_cases hv : (value.IsNaN || value.IsInf 0) = true
      · simp only [hv, if_true]
        simp [entry_ne_comma]
      · simp only [hv]
        simp [entry_ne_comma]
    · simp only [hts, if_false]
      rw [ih n, List.filter_cons_of_neg (by simpa using hts)]

/-- Claim C7. A point of a series is written to the datapoints list if and
only if the Unix seconds of its time less the step are positive, and the
timestamp written is exactly that number: the entries written, the
separating commas left out, are those of the points with a positive
timestamp, in order, each ending in `, ` and the timestamp; a point with a
timestamp of 0 or less leaves no entry, not even `null`. -/
theorem renderPoints_written_iff_positive (env : Env) (step : Duration)
    (pts : List (Time × Float64)) (n : Nat) :
    ∃ valueText : Float64 → String,
      (renderPoints env step n pts).filter (fun w => decide (w ≠ ",")) =
        (pts.filter (fun p => decide (0 < pointTs step p.1))).map
          (fun p => "[" ++ valueText p.2 ++ ", " ++ fmtInt (pointTs step p.1) ++ "]") := by
  refine ⟨fun v => if v.IsNaN || v.IsInf 0 then "null" else env.fmtFloat v, ?_⟩
  rw [renderPoints_entries]
  apply List.map_congr_left
  intro p _
  by_cases hv : (p.2.IsNaN || p.2.IsInf 0) = true
  · simp only [hv, if_true]
    rfl
  · simp only [hv]
    rfl

set_option maxRecDepth 8000 in
/-- The example of the specification: with times 0, 60 and 120 seconds and a
step of 60 seconds only the last point is written, with timestamp 60. -/
theorem renderPoints_epoch_example (env : Env) (v : Float64) :
    (renderPoints env 60000000000 0
        [(⟨0⟩, v), (⟨60000000000⟩, v), (⟨120000000000⟩, v)]).filter
        (fun w => decide (w ≠ ",")) =
      [if v.IsNaN || v.IsInf 0 then "[null, " ++ fmtInt 60 ++ "]"
       else "[" ++ env.fmtFloat v ++ ", " ++ fmtInt 60 ++ "]"] ∧
    fmtInt 60 = "60" := by
  rw [renderPoints_entries]
  exact ⟨rfl, by decide⟩

/-- The call `math.IsInf(f, 0)` holds for the two infinities alike. -/
theorem IsInf_zero (f : Float64) : f.IsInf 0 = (f.IsInf 1 || f.IsInf (-1)) := by
  unfold Float64.IsInf
  cases f.sign <;> simp

/-- Claim C8. For the points that are written (timestamp positive), the entry
is `[null, ts]` when the value is NaN, positive infinity or negative
infinity, and `[value, ts]` with the text of the value otherwise: a value
that is not finite never shows as a number and a finite one is never
replaced by `null`. -/
theorem renderPoints_null_iff_not_finite (env : Env) (step : Duration)
    (pts : List (Time × Float64)) (n : Nat) :
    (renderPoints env step n pts).filter (fun w => decide (w ≠ ",")) =
      (pts.filter (fun p => decide (0 < pointTs step p.1))).map
        (fun p =>
          if p.2.IsNaN = true ∨ p.2.IsInf 1 = true ∨ p.2.IsInf (-1) = true
          then "[null, " ++ fmtInt (pointTs step p.1) ++ "]"
          else "[" ++ env.fmtFloat p.2 ++ ", " ++ fmtInt (pointTs step p.1) ++ "]") := by
  rw [renderPoints_entries]
  apply List.map_congr_left
  intro p _
  rw [IsInf_zero]
  simp only [Bool.or_eq_true]

/-- The digit loop of `ParseUint` fails on a text with a character that is
not a digit. -/
theorem parseUintLoop_error : ∀ (ds : List Char) (n : Nat), ds.all Char.isDigit = false →
    ∃ e, parseUintLoop ds n = .error e := by
  intro ds
  induction ds with
  | nil => intro n h; simp at h
  | cons c cs ih =>
    intro n h
    rw [parseUintLoop]
    by_cases hc : c.isDigit = true
    · rw [if_pos hc]
      have hcs : cs.all Char.isDigit = false := by
        rw [List.all_cons, hc, Bool.true_and] at h
        exact h
      split
      · exact ⟨_, rfl⟩
      · dsimp only
        split
        · exact ⟨_, rfl⟩
        · exact ih _ hcs
    · rw [if_neg hc]; exact ⟨_, rfl⟩

theorem parseIntSigned_error (neg : Bool) (ds : List Char)
    (h : (!ds.isEmpty && ds.all Char.isDigit) = false) :
    ∃ e, parseIntSigned neg ds = .error e := by
  unfold parseIntSigned ParseUint
  cases ds with
  | nil => exact ⟨_, rfl⟩
  | cons c cs =>
    have h2 : (c :: cs).all Char.isDigit = false := by simpa using h
    obtain ⟨e, he⟩ := parseUintLoop_error (c :: cs) 0 h2
    simp only [he]
    cases e <;> exact ⟨_, rfl⟩

/-- A text that is not a base-10 integer is rejected by `Atoi`. -/
theorem Atoi_error {s : String} (h : isBase10Integer s = false) :
    ∃ e, Atoi s = .error e := by
  unfold isBase10Integer at h
  unfold Atoi ParseInt
  generalize s.data = d at h
  cases d with
  | nil => exact ⟨_, rfl⟩
  | cons c cs =>
    by_cases h1 : c = '+'
    · subst h1; exact parseIntSigned_error false cs h
    · by_cases h2 : c = '-'
      · subst h2; exact parseIntSigned_error true cs h
      · have hh : (!(c :: cs).isEmpty && (c :: cs).all Char.isDigit) = false := by
          revert h
          split
          · next ds heq => cases heq; exact absurd rfl h1
          · next ds heq => cases heq; exact absurd rfl h2
          · exact id
        split
        · next heq => cases heq
        · next ds heq => cases heq; exact absurd rfl h1
        · next ds heq => cases heq; exact absurd rfl h2
        · exact parseIntSigned_error false _ hh

/-- Claim C10. When `from` is malformed (`parseTime` returns an error), or
`until` is malformed, or `maxDataPoints` is not a base-10 integer, the
render handler answers with status 400, writes nothing to the body and
evaluates no target. -/
theorem render_malformed_is_bad_request (env : Env) (r : Request)
    (h : (∃ e, parseTime env env.nowFrom r.fromParam = .error e) ∨
         (∃ e, parseTime env env.nowUntil r.untilParam = .error e) ∨
         isBase10Integer r.maxDataPoints = false) :
    (GraphiteRenderHandler env r).status = 400 ∧
    (GraphiteRenderHandler env r).writes = [] ∧
    (GraphiteRenderHandler env r).body = "" ∧
    (GraphiteRenderHandler env r).evaluated = [] ∧
    (GraphiteRenderHandler env r).panicked = false := by
  have key : GraphiteRenderHandler env r = badRequest := by
    unfold GraphiteRenderHandler
    cases hf : parseTime env env.nowFrom r.fromParam with
    | error e => rfl
    | ok fromT =>
      cases hu : parseTime env env.nowUntil r.untilParam with
      | error e => rfl
      | ok untilT =>
        rcases h with ⟨e, he⟩ | ⟨e, he⟩ | hm
        · rw [hf] at he; cases he
        · rw [hu] at he; cases he
        · obtain ⟨e, he⟩ := Atoi_error hm
          simp only [he]
  rw [key]
  exact ⟨rfl, rfl, rfl, rfl, rfl⟩

theorem render_malformed_is_bad_request_witness :
    (GraphiteRenderHandler envDemo
        { fromParam := "yesterday", untilParam := "", maxDataPoints := "10",
          target := ["a"] }).status = 400 ∧
    (GraphiteRenderHandler envDemo
        { fromParam := "yesterday", untilParam := "", maxDataPoints := "10",
          target := ["a"] }).writes = [] ∧
    (GraphiteRenderHandler envDemo
        { fromParam := "yesterday", untilParam := "", maxDataPoints := "10",
          target := ["a"] }).body = "" ∧
    (GraphiteRenderHandler envDemo
        { fromParam := "yesterday", untilParam := "", maxDataPoints := "10",
          target := ["a"] }).evaluated = [] ∧
    (GraphiteRenderHandler envDemo
        { fromParam := "yesterday", untilParam := "", maxDataPoints := "10",
          target := ["a"] }).panicked = false :=
  render_malformed_is_bad_request envDemo _ (Or.inl ⟨.absolute "yesterday", by rfl⟩)

/-- Claim C9. With `from`, `until` and `maxDataPoints` well formed (`from`
parsed to an instant) and at least one target, if the query of the first
target fails, the body is exactly `[` followed by `]` and a newline, no
series is written, and the first target is the only one evaluated, whatever
the later targets are. -/
theorem render_first_target_fails (env : Env) (r : Request) (fromTime : Time)
    (untilT : Option Time) (points : Int) (target : String) (rest : List String)
    (err : String)
    (hfrom : parseTime env env.nowFrom r.fromParam = .ok (some fromTime))
    (huntil : parseTime env env.nowUntil r.untilParam = .ok untilT)
    (hpoints : Atoi r.maxDataPoints = .ok points)
    (htargets : r.target = target :: rest)
    (hfail : processTarget env target fromTime.Unix
        (untilT.getD env.nowDefault).Unix points = .error err) :
    (GraphiteRenderHandler env r).body = "[]\n" ∧
    (GraphiteRenderHandler env r).writes = ["[", "]\n"] ∧
    (GraphiteRenderHandler env r).evaluated = [target] ∧
    (GraphiteRenderHandler env r).status = 200 ∧
    (GraphiteRenderHandler env r).panicked = false := by
  have key : GraphiteRenderHandler env r =
      { status := 200, writes := ["[", "]\n"], evaluated := [target], panicked := false } := by
    unfold GraphiteRenderHandler
    cases untilT <;>
    · simp only [Option.getD] at hfail
      simp only [hfrom, huntil, hpoints, htargets]
      rw [renderTargets]
      simp only [hfail]
      rfl
  rw [key]
  exact ⟨rfl, rfl, rfl, rfl, rfl⟩

theorem render_first_target_fails_witness :
    (GraphiteRenderHandler envDemo
        { fromParam := "1", untilParam := "", maxDataPoints := "10",
          target := ["b", "a"] }).body = "[]\n" ∧
    (GraphiteRenderHandler envDemo
        { fromParam := "1", untilParam := "", maxDataPoints := "10",
          target := ["b", "a"] }).writes = ["[", "]\n"] ∧
    (GraphiteRenderHandler envDemo
        { fromParam := "1", untilParam := "", maxDataPoints := "10",
          target := ["b", "a"] }).evaluated = ["b"] ∧
    (GraphiteRenderHandler envDemo
        { fromParam := "1", untilParam := "", maxDataPoints := "10",
          target := ["b", "a"] }).status = 200 ∧
    (GraphiteRenderHandler envDemo
        { fromParam := "1", untilParam := "", maxDataPoints := "10",
          target := ["b", "a"] }).panicked = false :=
  render_first_target_fails envDemo _ (Time.ofUnix 1) none 10 "b" ["a"] "unknown series"
    (by rfl) (by rfl) (by rfl) (by rfl) (by rfl)

/-! ## Where the code departs from the specification, and idempotence -/

/-- Claim C1 (the code departs from it). Two targets, the first with one
series and the second failing in the query engine: the series object of the
first target is followed by a comma and then directly by the closing `]`,
because the comma is decided from the index of the target alone. -/
theorem render_comma_before_failed_target :
    (GraphiteRenderHandler envDemo
        { fromParam := "1", untilParam := "", maxDataPoints := "10",
          target := ["a", "b"] }).body =
      "[\n\x7b\"target\": \"a\", \"datapoints\": [\n]\x7d,\n]\n" := by
  decide

/-- Claim C2 (the code departs from it). A request without `from` is not
rejected: `parseTime` returns a nil pointer without an error, so with no
target the handler answers 200 with an empty array, and with a target it
writes `[` and panics on `from.Unix()` before any target is evaluated. -/
theorem render_missing_from_not_rejected (env : Env) :
    GraphiteRenderHandler env
        { fromParam := "", untilParam := "", maxDataPoints := "10", target := [] } =
      { status := 200, writes := ["[", "]\n"], evaluated := [], panicked := false } ∧
    ∀ (t : String) (ts : List String),
      GraphiteRenderHandler env
          { fromParam := "", untilParam := "", maxDataPoints := "10", target := t :: ts } =
        { status := 200, writes := ["["], evaluated := [], panicked := true } := by
  constructor
  · rfl
  · intro t ts; rfl

/-- Claim C3. The function `quoteIdentifiers` is idempotent: applied to its
own result it returns that result. -/
theorem quoteIdentifiers_idempotent (x : String) :
    quoteIdentifiers (quoteIdentifiers x) = quoteIdentifiers x := by
  unfold quoteIdentifiers
  show String.mk (quoteIdentifiersChars (quoteIdentifiersChars x.data)) = _
  rw [quoteIdentifiersChars_unfold (quoteIdentifiersChars x.data),
    firstPart_quoteIdentifiersChars]

/-- The example of the specification for two dotted paths in a call. -/
theorem quoteIdentifiers_sum_example :
    quoteIdentifiers "sum(host.cpu.*, host.mem.*)" =
      "sum(\"host.cpu.*\", \"host.mem.*\")" := by
  decide

/-- Claim C4 (the code departs from it). When the first path occurs inside
the second, `strings.Replace` quotes that occurrence too, and the second
path is not wrapped as a whole. -/
theorem quoteIdentifiers_substring_path :
    quoteIdentifiers "sum(a.b, a.b.c)" = "sum(\"a.b\", \"a.b\".c)" := by
  decide

/-- Claim C5 (the code departs from it). A quoted literal with a space in it
is not one match of the pattern; its last word holds a dot and is quoted
again, with the closing double quote of the literal escaped. -/
theorem quoteIdentifiers_literal_with_space :
    quoteIdentifiers "alias(a.b, \"my name.x\")" =
      "alias(\"a.b\", \"my \"name.x\\\"\")" := by
  decide

/-! ## `parseTime` -/

theorem parseTime_nil (env : Env) (now : Time) {s : String} (h : s.data = []) :
    parseTime env now s = .ok none := by
  unfold parseTime; rw [h]

theorem parseTime_minus (env : Env) (now : Time) {s : String} {rest : List Char}
    (h : s.data = '-' :: rest) :
    parseTime env now s =
      match env.BetterParseDuration (String.mk rest) with
      | some dur => .ok (some (now.Add (wrapInt64 (-dur))))
      | none => .error (.relative s) := by
  unfold parseTime; rw [h]; rfl

theorem parseTime_absolute (env : Env) (now : Time) {s : String} {c : Char}
    {cs : List Char} (h : s.data = c :: cs) (hc : c ≠ '-') :
    parseTime env now s =
      if s = "now" then .ok (some now)
      else
        match ParseInt s with
        | .ok i => .ok (some (Time.ofUnix i))
        | .error _ => .error (.absolute s) := by
  unfold parseTime
  rw [h]
  split
  · next heq => cases heq
  · next rest heq => cases heq; exact absurd rfl hc
  · rfl

theorem foldl_digits_ge (cs : List Char) (n : Nat) :
    n ≤ cs.foldl (fun n c => n * 10 + (c.toNat - 48)) n := by
  induction cs generalizing n with
  | nil => exact le_refl _
  | cons c cs ih =>
    rw [List.foldl_cons]
    exact le_trans (by omega) (ih _)

/-- The digit loop of `ParseUint` returns the value of the digits when that
value fits 64 bits. -/
theorem parseUintLoop_ok : ∀ (ds : List Char) (n : Nat), ds.all Char.isDigit = true →
    ds.foldl (fun n c => n * 10 + (c.toNat - 48)) n ≤ 18446744073709551615 →
    parseUintLoop ds n = .ok (ds.foldl (fun n c => n * 10 + (c.toNat - 48)) n) := by
  intro ds
  induction ds with
  | nil => intro n _ _; rfl
  | cons c cs ih =>
    intro n hd hv
    rw [List.all_cons, Bool.and_eq_true] at hd
    rw [List.foldl_cons] at hv ⊢
    have hge := foldl_digits_ge cs (n * 10 + (c.toNat - 48))
    rw [parseUintLoop, if_pos hd.1, if_neg (by omega)]
    dsimp only
    rw [if_neg (by omega)]
    exact ih _ hd.2 hv

theorem isDigit_ne_minus {c : Char} (h : c.isDigit = true) : c ≠ '-' := by
  rintro rfl; exact absurd h (by decide)

theorem isDigit_ne_plus {c : Char} (h : c.isDigit = true) : c ≠ '+' := by
  rintro rfl; exact absurd h (by decide)

theorem parseIntSigned_ok {ds : List Char} {v : Nat} (hv : v < 2 ^ 63)
    (h : ParseUint ds = .ok v) : parseIntSigned false ds = .ok (v : Int) := by
  unfold parseIntSigned
  simp only [h]
  have : ¬ (9223372036854775808 ≤ v) := by omega
  simp [this]

/-- On a run of digits whose value fits an `int64`, `ParseInt` returns the
value. -/
theorem ParseInt_digits {s : String} (hne : s.data ≠ [])
    (hd : s.data.all Char.isDigit = true) (hr : decimalValue s.data < 2 ^ 63) :
    ParseInt s = .ok (decimalValue s.data : Int) := by
  unfold ParseInt
  cases hs : s.data with
  | nil => exact absurd hs hne
  | cons c cs =>
    rw [hs] at hd hr
    have hc : c.isDigit = true := by
      rw [List.all_cons, Bool.and_eq_true] at hd; exact hd.1
    have hloop := parseUintLoop_ok (c :: cs) 0 hd (by unfold decimalValue at hr; omega)
    have hsigned : parseIntSigned false (c :: cs) = .ok (decimalValue (c :: cs) : Int) :=
      parseIntSigned_ok hr hloop
    split
    · next heq => cases heq
    · next ds heq => cases heq; exact absurd rfl (isDigit_ne_plus hc)
    · next ds heq => cases heq; exact absurd rfl (isDigit_ne_minus hc)
    · exact hsigned

/-- Claim C11, amended. For every non-empty run of decimal digits whose value
is below 2^63, `parseTime` returns no error and the instant that many
seconds after the Unix epoch. -/
theorem parseTime_digits (env : Env) (now : Time) (s : String)
    (hne : s.data ≠ []) (hd : s.data.all Char.isDigit = true)
    (hr : decimalValue s.data < 2 ^ 63) :
    parseTime env now s = .ok (some (Time.ofUnix (decimalValue s.data))) ∧
    (Time.ofUnix (decimalValue s.data)).unixNano = (decimalValue s.data : Int) * 1000000000 ∧
    (Time.ofUnix (decimalValue s.data)).Unix = (decimalValue s.data : Int) := by
  refine ⟨?_, rfl, ?_⟩
  · cases hs : s.data with
    | nil => exact absurd hs hne
    | cons c cs =>
      have hc : c.isDigit = true := by
        rw [hs, List.all_cons, Bool.and_eq_true] at hd; exact hd.1
      have hnow : s ≠ "now" := by
        intro h
        rw [h] at hs
        cases hs
        exact absurd hc (by decide)
      rw [parseTime_absolute env now hs (isDigit_ne_minus hc), if_neg hnow,
        ParseInt_digits hne hd hr, hs]
  · rw [Time.Unix_ofUnix]
    exact wrapInt64_of_range (by omega) (by exact_mod_cast hr)

theorem parseTime_digits_witness :
    parseTime envDemo ⟨0⟩ "1700000000" = .ok (some (Time.ofUnix (decimalValue "1700000000".data))) ∧
    (Time.ofUnix (decimalValue "1700000000".data)).unixNano =
      (decimalValue "1700000000".data : Int) * 1000000000 ∧
    (Time.ofUnix (decimalValue "1700000000".data)).Unix = (decimalValue "1700000000".data : Int) :=
  parseTime_digits envDemo ⟨0⟩ "1700000000" (by decide) (by decide) (by decide)

/-- Claim C11 as stated fails: the digits of 2^63 are rejected, because the
value does not fit the `int64` that `ParseInt(s, 10, 64)` returns. -/
theorem parseTime_digits_out_of_range :
    "9223372036854775808".data ≠ [] ∧
    "9223372036854775808".data.all Char.isDigit = true ∧
    parseTime envDemo ⟨0⟩ "9223372036854775808" =
      .error (.absolute "9223372036854775808") := by
  refine ⟨by decide, by decide, by rfl⟩

/-- Claim C12. The function `parseTime` returns an absent boundary without an
error if and only if its input is the empty string; on the empty string it
does so, and on every other input the result is an error or a present
instant. -/
theorem parseTime_absent_iff_empty (env : Env) (now : Time) (s : String) :
    parseTime env now "" = .ok none ∧
    (parseTime env now s = .ok none ↔ s = "") ∧
    (s ≠ "" → (∃ e, parseTime env now s = .error e) ∨
      ∃ t, parseTime env now s = .ok (some t)) := by
  have hempty : s = "" ↔ s.data = [] := by
    constructor
    · intro h; rw [h]
    · intro h; exact String.ext h
  have hcases : s.data ≠ [] → (∃ e, parseTime env now s = .error e) ∨
      ∃ t, parseTime env now s = .ok (some t) := by
    intro hne
    cases hs : s.data with
    | nil => exact absurd hs hne
    | cons c cs =>
      by_cases hc : c = '-'
      · subst hc
        rw [parseTime_minus env now hs]
        cases env.BetterParseDuration (String.mk cs) with
        | some dur => exact Or.inr ⟨_, rfl⟩
        | none => exact Or.inl ⟨_, rfl⟩
      · rw [parseTime_absolute env now hs hc]
        by_cases hnow : s = "now"
        · rw [if_pos hnow]; exact Or.inr ⟨_, rfl⟩
        · rw [if_neg hnow]
          cases ParseInt s with
          | ok i => exact Or.inr ⟨_, rfl⟩
          | error e => exact Or.inl ⟨_, rfl⟩
  refine ⟨rfl, ⟨?_, ?_⟩, ?_⟩
  · intro h
    by_contra hne
    rcases hcases (fun hd => hne (hempty.2 hd)) with ⟨e, he⟩ | ⟨t, ht⟩
    · rw [he] at h; cases h
    · rw [ht] at h; cases h
  · intro h
    exact parseTime_nil env now (hempty.1 h)
  · intro hne
    exact hcases (fun hd => hne (hempty.2 hd))

/-- Claim C13. The function `parseTime` returns an error exactly when (a) the
input begins with `-` and the duration parser rejects what follows the `-`,
or (b) the input is not empty, does not begin with `-`, is not `now`, and
`ParseInt(s, 10, 64)` rejects it. The result type holds either an error or a
boundary, as each error return of the source has a nil pointer. The input
`not-a-time` is of kind (b). -/
theorem parseTime_error_iff (env : Env) (now : Time) (s : String) :
    ((∃ e, parseTime env now s = .error e) ↔
      ((∃ rest, s.data = '-' :: rest ∧ env.BetterParseDuration (String.mk rest) = none) ∨
       (s.data ≠ [] ∧ (∀ rest, s.data ≠ '-' :: rest) ∧ s ≠ "now" ∧
          ∃ e, ParseInt s = .error e))) ∧
    parseTime env now "not-a-time" = .error (.absolute "not-a-time") := by
  refine ⟨?_, by rfl⟩
  cases hs : s.data with
  | nil =>
    rw [parseTime_nil env now hs]
    constructor
    · rintro ⟨e, he⟩; cases he
    · rintro (⟨rest, h, _⟩ | ⟨h, _⟩)
      · cases h
      · exact absurd rfl h
  | cons c cs =>
    by_cases hc : c = '-'
    · subst hc
      rw [parseTime_minus env now hs]
      constructor
      · intro h
        left
        refine ⟨cs, rfl, ?_⟩
        cases hd : env.BetterParseDuration (String.mk cs) with
        | none => rfl
        | some dur =>
          rw [hd] at h
          obtain ⟨e, he⟩ := h
          cases he
      · rintro (⟨rest, h, hd⟩ | ⟨_, h, _⟩)
        · cases h
          rw [hd]
          exact ⟨_, rfl⟩
        · exact absurd rfl (h cs)
    · rw [parseTime_absolute env now hs hc]
      constructor
      · intro h
        right
        by_cases hnow : s = "now"
        · rw [if_pos hnow] at h
          obtain ⟨e, he⟩ := h
          cases he
        · rw [if_neg hnow] at h
          refine ⟨by simp, ?_, hnow, ?_⟩
          · intro rest hrest
            cases hrest
            exact hc rfl
          · cases hp : ParseInt s with
            | error e => exact ⟨e, rfl⟩
            | ok i =>
              rw [hp] at h
              obtain ⟨e, he⟩ := h
              cases he
      · rintro (⟨rest, h, _⟩ | ⟨_, _, hnow, e, he⟩)
        · cases h
          exact absurd rfl hc
        · rw [if_neg hnow, he]
          exact ⟨_, rfl⟩

/-! ## The find handler -/

theorem splitDot_form : ∀ l : List Char, ∃ init last, splitDot l = init ++ [last] ∧
    '.' ∉ last ∧ l = (init.flatMap (fun p => p ++ ['.'])) ++ last := by
  intro l
  induction l with
  | nil => exact ⟨[], [], rfl, by simp, rfl⟩
  | cons c cs ih =>
    obtain ⟨init, last, hsplit, hdot, hcs⟩ := ih
    by_cases hc : c = '.'
    · refine ⟨[] :: init, last, ?_, hdot, ?_⟩
      · rw [splitDot, if_pos hc, hsplit]; rfl
      · subst hc
        rw [List.flatMap_cons]
        simp only [List.nil_append, List.cons_append]
        rw [← hcs]
    · cases init with
      | nil =>
        refine ⟨[], c :: last, ?_, ?_, ?_⟩
        · rw [splitDot, if_neg hc, hsplit]; rfl
        · intro h
          rcases List.mem_cons.1 h with h | h
          · exact hc h.symm
          · exact hdot h
        · simp only [List.flatMap_nil, List.nil_append] at hcs ⊢
          rw [hcs]
      | cons p init =>
        refine ⟨(c :: p) :: init, last, ?_, hdot, ?_⟩
        · rw [splitDot, if_neg hc, hsplit]; rfl
        · rw [hcs]
          simp [List.flatMap_cons]

/-- The text `lastPart name` holds no dot, and the name is that text alone or
ends in a dot followed by that text. -/
theorem lastPart_spec (name : String) :
    '.' ∉ (lastPart name).data ∧
    (name.data = (lastPart name).data ∨
      ∃ pre, name.data = pre ++ '.' :: (lastPart name).data) := by
  obtain ⟨init, last, hsplit, hdot, hname⟩ := splitDot_form name.data
  have hlast : (lastPart name).data = last := by
    unfold lastPart
    rw [hsplit]
    simp
  rw [hlast]
  refine ⟨hdot, ?_⟩
  rcases List.eq_nil_or_concat init with rfl | ⟨init', p, rfl⟩
  · left; simpa using hname
  · right
    refine ⟨init'.flatMap (fun p => p ++ ['.']) ++ p, ?_⟩
    rw [hname]
    simp [List.flatMap_append]

theorem nodeObject_leaf (name : String) :
    nodeObject { Name := name, Leaf := true } =
      "\x7b\"leaf\": 1, \"context\": \x7b\x7d, \"text\": \"" ++ lastPart name ++
        "\", \"expandable\": 0, \"id\": \"" ++ name ++ "\", \"allowChildren\": 0\x7d" := by
  unfold nodeObject
  apply String.ext
  simp only [String.data_append, List.append_assoc, if_true]
  rfl

theorem nodeObject_branch (name : String) :
    nodeObject { Name := name, Leaf := false } =
      "\x7b\"leaf\": 0, \"context\": \x7b\x7d, \"text\": \"" ++ lastPart name ++
        "\", \"expandable\": 1, \"id\": \"" ++ name ++ "\", \"allowChildren\": 1\x7d" := by
  unfold nodeObject
  apply String.ext
  simp only [String.data_append, List.append_assoc, Bool.false_eq_true, if_false]
  rfl

theorem findNodes_object (total n : Nat) (node : TreeNode) (rest : List TreeNode) :
    findNodes total n (node :: rest) =
      [nodeObject node] ++ (if (n : Int) < (total : Int) - 1 then [",\n"] else []) ++
        findNodes total (n + 1) rest := by
  rw [findNodes]
  congr 2
  obtain ⟨name, leaf⟩ := node
  cases leaf
  · rw [nodeObject_branch]; rfl
  · rw [nodeObject_leaf]; rfl

/-- With `total` the index after the last node, the loop writes the objects of
the nodes with one separator between two of them. -/
theorem findNodes_intersperse : ∀ (nodes : List TreeNode) (n total : Nat),
    total = n + nodes.length →
    findNodes total n nodes = List.intersperse ",\n" (nodes.map nodeObject) := by
  intro nodes
  induction nodes with
  | nil => intro n total _; rfl
  | cons node rest ih =>
    intro n total ht
    rw [findNodes_object, ih (n + 1) total (by simp at ht; omega)]
    cases rest with
    | nil =>
      have : ¬ ((n : Int) < (total : Int) - 1) := by simp at ht; omega
      rw [if_neg this]
      rfl
    | cons node2 rest2 =>
      have : (n : Int) < (total : Int) - 1 := by simp at ht; omega
      rw [if_pos this]
      rfl

/-- Claim C14. The body written by `GraphiteMetricsFindHandler` is `[` and a
newline, one object for each node in the order of the lookup, a comma and a
newline between two objects and none after the last, then a newline, `]`
and a newline. The object of a node has `id` the whole name, `text` the last
dot-separated segment of the name, `context` the empty object, `leaf` 1 for
a leaf and 0 otherwise, and `expandable` and `allowChildren` 1 less `leaf`. -/
theorem find_body (FsFind : String → List TreeNode) (query : String) :
    GraphiteMetricsFindHandler FsFind query =
      ["[\n"] ++ List.intersperse ",\n" ((FsFind query).map nodeObject) ++ ["\n]\n"] ∧
    (∀ name : String,
      nodeObject { Name := name, Leaf := true } =
        "\x7b\"leaf\": 1, \"context\": \x7b\x7d, \"text\": \"" ++ lastPart name ++
          "\", \"expandable\": 0, \"id\": \"" ++ name ++ "\", \"allowChildren\": 0\x7d" ∧
      nodeObject { Name := name, Leaf := false } =
        "\x7b\"leaf\": 0, \"context\": \x7b\x7d, \"text\": \"" ++ lastPart name ++
          "\", \"expandable\": 1, \"id\": \"" ++ name ++ "\", \"allowChildren\": 1\x7d" ∧
      '.' ∉ (lastPart name).data ∧
      (name.data = (lastPart name).data ∨
        ∃ pre, name.data = pre ++ '.' :: (lastPart name).data)) := by
  refine ⟨?_, fun name => ⟨?_, ?_, lastPart_spec name⟩⟩
  · unfold GraphiteMetricsFindHandler
    simp only
    rw [findNodes_intersperse (FsFind query) 0 _ (by simp)]
  · exact nodeObject_leaf name
  · exact nodeObject_branch name

set_option maxRecDepth 8000 in
/-- The find response for a branch and a leaf. -/
theorem find_example :
    String.join (GraphiteMetricsFindHandler
      (fun _ => [{ Name := "a.b", Leaf := false }, { Name := "a.c", Leaf := true }]) "a.*") =
      "[\n\x7b\"leaf\": 0, \"context\": \x7b\x7d, \"text\": \"b\", \"expandable\": 1, \"id\": \"a.b\", \"allowChildren\": 1\x7d,\n\x7b\"leaf\": 1, \"context\": \x7b\x7d, \"text\": \"c\", \"expandable\": 0, \"id\": \"a.c\", \"allowChildren\": 0\x7d\n]\n" := by
  decide

/-! ## The order of the series of a target -/

theorem char_eq_of_toNat_eq {a b : Char} (h : a.toNat = b.toNat) : a = b := by
  apply Char.ext
  apply UInt32.ext
  exact h

theorem lexLe_total : ∀ a b : List Char, lexLe a b = true ∨ lexLe b a = true := by
  intro a
  induction a with
  | nil => intro b; left; cases b <;> rfl
  | cons x xs ih =>
    intro b
    cases b with
    | nil => right; rfl
    | cons y ys =>
      simp only [lexLe, Bool.or_eq_true, decide_eq_true_eq, Bool.and_eq_true, beq_iff_eq]
      rcases Nat.lt_trichotomy x.toNat y.toNat with h | h | h
      · left; left; exact h
      · have hxy := char_eq_of_toNat_eq h
        rcases ih ys with h1 | h1
        · left; right; exact ⟨hxy, h1⟩
        · right; right; exact ⟨hxy.symm, h1⟩
      · right; left; exact h

theorem lexLe_trans : ∀ a b c : List Char, lexLe a b = true → lexLe b c = true →
    lexLe a c = true := by
  intro a
  induction a with
  | nil => intro b c _ _; cases c <;> rfl
  | cons x xs ih =>
    intro b c hab hbc
    cases b with
    | nil => simp [lexLe] at hab
    | cons y ys =>
      cases c with
      | nil => simp [lexLe] at hbc
      | cons z zs =>
        simp only [lexLe, Bool.or_eq_true, decide_eq_true_eq, Bool.and_eq_true,
          beq_iff_eq] at hab hbc ⊢
        rcases hab with h1 | ⟨h1, h1'⟩
        · rcases hbc with h2 | ⟨h2, _⟩
          · left; omega
          · left; rw [← h2]; exact h1
        · rcases hbc with h2 | ⟨h2, h2'⟩
          · left; rw [h1]; exact h2
          · right; exact ⟨h1.trans h2, ih ys zs h1' h2'⟩

theorem SortedKeys_eq_insertionSort (m : SeriesMap) :
    SortedKeys m =
      List.insertionSort (fun a b : String => lexLe a.data b.data = true) (m.map Prod.fst) := by
  unfold SortedKeys
  induction m.map Prod.fst with
  | nil => rfl
  | cons k ks ih =>
    rw [List.foldr_cons, List.insertionSort, ih]
    generalize List.insertionSort (fun a b : String => lexLe a.data b.data = true) ks = l
    induction l with
    | nil => rfl
    | cons x xs ihx =>
      rw [insertName, List.orderedInsert, ihx]

/-- The names `SortedKeys` returns are the names of the collection, each as
often as it occurs there, in lexicographic order. -/
theorem SortedKeys_sorted (m : SeriesMap) :
    List.Perm (SortedKeys m) (m.map Prod.fst) ∧
    List.Pairwise (fun a b : String => lexLe a.data b.data = true) (SortedKeys m) := by
  rw [SortedKeys_eq_insertionSort]
  haveI : IsTotal String (fun a b : String => lexLe a.data b.data = true) :=
    ⟨fun a b => lexLe_total a.data b.data⟩
  haveI : IsTrans String (fun a b : String => lexLe a.data b.data = true) :=
    ⟨fun a b c => lexLe_trans a.data b.data c.data⟩
  exact ⟨List.perm_insertionSort _ _, List.sorted_insertionSort _ _⟩

theorem head_append (a b : String) (c : Char) (h : a.data.head? = some c) :
    (a ++ b).data.head? = some c := by
  rw [String.data_append]
  cases ha : a.data with
  | nil => rw [ha] at h; cases h
  | cons x xs => rw [ha] at h; simpa using h

theorem isHeader_entry (a b : String) : isHeader ("[" ++ a ++ b ++ "]") = false := by
  unfold isHeader
  have h : ("[" ++ a ++ b ++ "]").data.head? = some '[' :=
    head_append _ _ _ (head_append _ _ _ (head_append "[" a '[' rfl))
  rw [h]
  decide

theorem renderPoints_no_header (env : Env) (step : Duration) :
    ∀ (pts : List (Time × Float64)) (n : Nat),
      (renderPoints env step n pts).filter isHeader = [] := by
  intro pts
  induction pts with
  | nil => intro n; rfl
  | cons p rest ih =>
    intro n
    obtain ⟨t, value⟩ := p
    rw [renderPoints]
    have hcomma : (if n > 0 then [","] else []).filter isHeader = [] := by
      split
      · rfl
      · rfl
    rw [List.filter_append, hcomma, List.nil_append]
    by_cases hts : pointTs step t > 0
    · simp only [hts, if_true]
      rw [List.filter_append, ih (n + 1), List.append_nil]
      by_cases hv : (value.IsNaN || value.IsInf 0) = true
      · simp only [hv, if_true]
        have := isHeader_entry "null, " (fmtInt (pointTs step t))
        have e : "[" ++ "null, " ++ fmtInt (pointTs step t) ++ "]" =
            "[null, " ++ fmtInt (pointTs step t) ++ "]" := rfl
        rw [e] at this
        simp [this]
      · simp only [hv]
        have := isHeader_entry (env.fmtFloat value ++ ", ") (fmtInt (pointTs step t))
        have e : "[" ++ (env.fmtFloat value ++ ", ") ++ fmtInt (pointTs step t) ++ "]" =
            "[" ++ env.fmtFloat value ++ ", " ++ fmtInt (pointTs step t) ++ "]" := by
          simp only [String.append_assoc]
        rw [e] at this
        simp [this]
    · simp only [hts, if_false]
      exact ih n

/-- The headers the series loop writes: one for each name that has an entry,
in the order of the names, with the alias of the series when it is not
empty. -/
theorem renderSeries_headers (env : Env) (m : SeriesMap) (tn targets : Nat) :
    ∀ (names : List String) (nn : Nat),
      (renderSeries env m tn targets nn names).filter isHeader =
        names.filterMap (fun name => (m.lookup name).map
          (fun s => seriesHeader (if s.Alias ≠ "" then s.Alias else name))) := by
  intro names
  induction names with
  | nil => intro nn; rfl
  | cons name names ih =>
    intro nn
    rw [renderSeries]
    cases hl : m.lookup name with
    | none =>
      rw [List.filterMap_cons, hl]
      exact ih nn
    | some series =>
      rw [List.filterMap_cons, hl]
      simp only [Option.map_some']
      rw [List.filter_append, List.filter_append, List.filter_append, ih (nn + 1),
        renderPoints_no_header]
      have hclose : (if (nn : Int) < (m.length : Int) - 1 ∨ (tn : Int) < (targets : Int) - 1
          then ["]\x7d,\n"] else ["]\x7d"]).filter isHeader = [] := by
        split
        · rfl
        · rfl
      rw [hclose]
      have hhead : isHeader ("\n\x7b\"target\": \"" ++
          (if series.Alias ≠ "" then series.Alias else name) ++
          "\", \"datapoints\": [\n") = true := by
        unfold isHeader
        rw [head_append _ _ '\n' (head_append "\n\x7b\"target\": \"" _ '\n' rfl)]
        decide
      rw [List.filter_cons_of_pos hhead]
      rfl

theorem lookup_cons_ne {k a : String} (b : Series) (m : SeriesMap) (h : k ≠ a) :
    List.lookup k ((a, b) :: m) = List.lookup k m := by
  rw [List.lookup_cons]
  have : (k == a) = false := by simpa using h
  rw [this]

theorem lookup_cons_self (a : String) (b : Series) (m : SeriesMap) :
    List.lookup a ((a, b) :: m) = some b := by
  rw [List.lookup_cons]
  simp

/-- With names that differ, looking up the names of a collection in order
gives back its entries. -/
theorem filterMap_lookup_self : ∀ m : SeriesMap, (m.map Prod.fst).Nodup →
    (m.map Prod.fst).filterMap (fun k => (m.lookup k).map (fun s => (k, s))) = m := by
  intro m
  induction m with
  | nil => intro _; rfl
  | cons e m ih =>
    intro hnd
    obtain ⟨a, b⟩ := e
    rw [List.map_cons, List.nodup_cons] at hnd
    rw [List.map_cons, List.filterMap_cons, lookup_cons_self]
    simp only [Option.map_some']
    congr 1
    have : (m.map Prod.fst).filterMap
        (fun k => (List.lookup k ((a, b) :: m)).map (fun s => (k, s))) =
        (m.map Prod.fst).filterMap (fun k => (m.lookup k).map (fun s => (k, s))) := by
      apply List.filterMap_congr
      intro k hk
      have hne : k ≠ a := by
        rintro rfl
        exact hnd.1 hk
      rw [lookup_cons_ne b m hne]
    rw [this]
    exact ih hnd.2

/-- Claim C15. For a collection whose names differ (a Go map), the `target`
labels written for a target are those of the entries of the collection in
lexicographic order of the names: every entry is written exactly once, with
the alias of the series when the alias is not empty and with the name
otherwise, and the order is that of the names whatever the aliases are. -/
theorem renderSeries_labels_sorted (env : Env) (m : SeriesMap) (tn targets : Nat)
    (hm : (m.map Prod.fst).Nodup) :
    ∃ sorted : List (String × Series),
      List.Perm sorted m ∧
      List.Pairwise (fun a b : String × Series => lexLe a.1.data b.1.data = true) sorted ∧
      sorted.map Prod.fst = SortedKeys m ∧
      (renderSeries env m tn targets 0 (SortedKeys m)).filter isHeader =
        sorted.map (fun e => seriesHeader (if e.2.Alias ≠ "" then e.2.Alias else e.1)) := by
  obtain ⟨hperm, hsorted⟩ := SortedKeys_sorted m
  have hfst : ((SortedKeys m).filterMap
      (fun k => (m.lookup k).map (fun s => (k, s)))).map Prod.fst = SortedKeys m := by
    have hall : ∀ k ∈ SortedKeys m, ∃ s, m.lookup k = some s := by
      intro k hk
      have hk2 : k ∈ m.map Prod.fst := hperm.mem_iff.1 hk
      cases hl : m.lookup k with
      | some s => exact ⟨s, rfl⟩
      | none =>
        rw [List.lookup_eq_none_iff] at hl
        obtain ⟨e, he, rfl⟩ := List.mem_map.1 hk2
        have := hl e he
        simp at this
    generalize SortedKeys m = ks at hall
    induction ks with
    | nil => rfl
    | cons k ks ih =>
      obtain ⟨s, hs⟩ := hall k (List.mem_cons_self _ _)
      rw [List.filterMap_cons, hs]
      simp only [Option.map_some', List.map_cons]
      rw [ih (fun x hx => hall x (List.mem_cons_of_mem _ hx))]
  refine ⟨(SortedKeys m).filterMap (fun k => (m.lookup k).map (fun s => (k, s))), ?_, ?_,
    hfst, ?_⟩
  · have h1 := hperm.filterMap (fun k => (m.lookup k).map (fun s => (k, s)))
    rw [filterMap_lookup_self m hm] at h1
    exact h1
  · have h2 : List.Pairwise (fun a b : String => lexLe a.data b.data = true)
        (((SortedKeys m).filterMap
          (fun k => (m.lookup k).map (fun s => (k, s)))).map Prod.fst) := by
      rw [hfst]; exact hsorted
    exact (List.pairwise_map.1 h2)
  · rw [renderSeries_headers, List.map_filterMap]
    apply List.filterMap_congr
    intro k _
    cases m.lookup k <;> rfl

theorem renderSeries_labels_sorted_witness :
    ∃ sorted : List (String × Series),
      List.Perm sorted mapDemo ∧
      List.Pairwise (fun a b : String × Series => lexLe a.1.data b.1.data = true) sorted ∧
      sorted.map Prod.fst = SortedKeys mapDemo ∧
      (renderSeries envDemo mapDemo 0 1 0 (SortedKeys mapDemo)).filter isHeader =
        sorted.map (fun e => seriesHeader (if e.2.Alias ≠ "" then e.2.Alias else e.1)) :=
  renderSeries_labels_sorted envDemo mapDemo 0 1 (by decide)

/-- The collection of the witness: the series `a.y` comes first, under its
alias `zz`, and the series `b.x` second. -/
theorem renderSeries_labels_example :
    (renderSeries envDemo mapDemo 0 1 0 (SortedKeys mapDemo)).filter isHeader =
      [seriesHeader "zz", seriesHeader "b.x"] := by
  decide

/-! ## The commas of the datapoints list -/

theorem renderPoints_cons_pos (env : Env) (step : Duration) (n : Nat) (p : Time × Float64)
    (rest : List (Time × Float64)) (h : 0 < pointTs step p.1) :
    renderPoints env step n (p :: rest) =
      (if n > 0 then [","] else []) ++
        pointEntry env step p :: renderPoints env step (n + 1) rest := by
  obtain ⟨t, value⟩ := p
  rw [renderPoints]
  have h' : pointTs step t > 0 := h
  simp only [h', if_true]
  congr 1
  unfold pointEntry
  split <;> rfl

theorem renderPoints_cons_neg (env : Env) (step : Duration) (n : Nat) (p : Time × Float64)
    (rest : List (Time × Float64)) (h : ¬ 0 < pointTs step p.1) :
    renderPoints env step n (p :: rest) =
      (if n > 0 then [","] else []) ++ renderPoints env step n rest := by
  obtain ⟨t, value⟩ := p
  rw [renderPoints]
  have h' : ¬ pointTs step t > 0 := h
  simp only [h', if_false]

/-- Points dropped before the first entry leave nothing in the body. -/
theorem renderPoints_dropped (env : Env) (step : Duration)
    (pre rest : List (Time × Float64)) (h : ∀ p ∈ pre, ¬ 0 < pointTs step p.1) :
    renderPoints env step 0 (pre ++ rest) = renderPoints env step 0 rest := by
  induction pre with
  | nil => rfl
  | cons p pre ih =>
    rw [List.cons_append, renderPoints_cons_neg env step 0 p _ (h p (List.mem_cons_self _ _))]
    exact ih (fun q hq => h q (List.mem_cons_of_mem _ hq))

/-- After the first entry, points that are all written come each with one
comma before the entry. -/
theorem renderPoints_written_succ (env : Env) (step : Duration) :
    ∀ (pts : List (Time × Float64)) (n : Nat), (∀ p ∈ pts, 0 < pointTs step p.1) →
      renderPoints env step (n + 1) pts =
        pts.flatMap (fun p => [",", pointEntry env step p]) := by
  intro pts
  induction pts with
  | nil => intro n _; rfl
  | cons p rest ih =>
    intro n h
    rw [renderPoints_cons_pos env step (n + 1) p rest (h p (List.mem_cons_self _ _)),
      if_pos (by omega), ih (n + 1) (fun q hq => h q (List.mem_cons_of_mem _ hq)),
      List.flatMap_cons]
    rfl

theorem intersperse_cons_flatMap (sep : String) (a : String) (l : List String) :
    List.intersperse sep (a :: l) = a :: l.flatMap (fun x => [sep, x]) := by
  induction l generalizing a with
  | nil => rfl
  | cons b l ih =>
    rw [List.intersperse_cons₂, ih, List.flatMap_cons]
    rfl

/-- When the dropped points come first and the written ones after them, the
body holds the entries with one comma between two of them. -/
theorem renderPoints_of_split (env : Env) (step : Duration)
    (pre post : List (Time × Float64)) (hpre : ∀ p ∈ pre, ¬ 0 < pointTs step p.1)
    (hpost : ∀ p ∈ post, 0 < pointTs step p.1) :
    renderPoints env step 0 (pre ++ post) =
      List.intersperse "," (post.map (pointEntry env step)) := by
  rw [renderPoints_dropped env step pre post hpre]
  cases post with
  | nil => rfl
  | cons p rest =>
    rw [renderPoints_cons_pos env step 0 p rest (hpost p (List.mem_cons_self _ _)),
      if_neg (by omega), List.nil_append,
      renderPoints_written_succ env step rest 0 (fun q hq => hpost q (List.mem_cons_of_mem _ hq)),
      List.map_cons, intersperse_cons_flatMap, List.flatMap_map]

/-- The first text written for the points of a series is never a comma. -/
theorem renderPoints_no_leading_comma (env : Env) (step : Duration) :
    ∀ pts : List (Time × Float64), (renderPoints env step 0 pts).head? ≠ some "," := by
  intro pts
  induction pts with
  | nil => intro h; cases h
  | cons p rest ih =>
    by_cases hp : 0 < pointTs step p.1
    · rw [renderPoints_cons_pos env step 0 p rest hp, if_neg (by omega)]
      simp only [List.nil_append, List.head?_cons, ne_eq, Option.some.injEq]
      unfold pointEntry
      split
      · rw [entry_ne_comma]; exact not_false
      · rw [entry_ne_comma]; exact not_false
    · rw [renderPoints_cons_neg env step 0 p rest hp, if_neg (by omega)]
      exact ih

/-- The text of the datapoints list has no leading comma; and when no dropped
point comes after a written one, the text is the entries of the written
points with exactly one comma between two of them. -/
theorem renderPoints_commas (env : Env) (step : Duration) (pts : List (Time × Float64)) :
    (renderPoints env step 0 pts).head? ≠ some "," ∧
    (List.Pairwise (fun p q : Time × Float64 =>
        0 < pointTs step p.1 → 0 < pointTs step q.1) pts →
      renderPoints env step 0 pts =
        List.intersperse ","
          ((pts.filter (fun p => decide (0 < pointTs step p.1))).map (pointEntry env step))) := by
  refine ⟨renderPoints_no_leading_comma env step pts, ?_⟩
  intro h
  induction pts with
  | nil => rfl
  | cons p rest ih =>
    rw [List.pairwise_cons] at h
    by_cases hp : 0 < pointTs step p.1
    · have hall : ∀ q ∈ p :: rest, 0 < pointTs step q.1 := by
        intro q hq
        rcases List.mem_cons.1 hq with rfl | hq
        · exact hp
        · exact h.1 q hq hp
      have hfilter : (p :: rest).filter (fun p => decide (0 < pointTs step p.1)) = p :: rest :=
        List.filter_eq_self.2 (fun q hq => by simpa using hall q hq)
      rw [hfilter]
      exact renderPoints_of_split env step [] (p :: rest) (fun _ hq => by cases hq) hall
    · rw [List.filter_cons_of_neg (by simpa using hp), ← ih h.2]
      exact renderPoints_dropped env step [p] rest (fun q hq => by
        rw [List.mem_singleton.1 hq]; exact hp)

set_option maxRecDepth 8000 in
/-- An instance: a dropped point followed by two written ones. -/
theorem renderPoints_commas_witness :
    (renderPoints envDemo 60000000000 0
        [(⟨0⟩, floatOne), (⟨120000000000⟩, floatOne), (⟨180000000000⟩, floatOne)]).head? ≠
      some "," ∧
    renderPoints envDemo 60000000000 0
        [(⟨0⟩, floatOne), (⟨120000000000⟩, floatOne), (⟨180000000000⟩, floatOne)] =
      List.intersperse ","
        (([(⟨0⟩, floatOne), (⟨120000000000⟩, floatOne), (⟨180000000000⟩, floatOne)].filter
          (fun p => decide (0 < pointTs 60000000000 p.1))).map
            (pointEntry envDemo 60000000000)) :=
  ⟨(renderPoints_commas envDemo 60000000000 _).1,
   (renderPoints_commas envDemo 60000000000 _).2 (by decide)⟩

set_option maxRecDepth 8000 in
/-- Claim C16 (the code departs from it). The comma is written when `n > 0`,
before the test `ts > 0`, so a point dropped after a written one leaves its
comma behind: with times 120 and 0 seconds and a step of 60 seconds the text
ends in a comma, with a third point at 180 seconds it has a doubled comma,
and the text is not the written entries with one comma between two of
them. -/
theorem renderPoints_dangling_comma :
    String.join (renderPoints envDemo 60000000000 0
        [(⟨120000000000⟩, floatOne), (⟨0⟩, floatOne)]) = "[1, 60]," ∧
    String.join (renderPoints envDemo 60000000000 0
        [(⟨120000000000⟩, floatOne), (⟨0⟩, floatOne), (⟨180000000000⟩, floatOne)]) =
      "[1, 60],,[1, 120]" ∧
    renderPoints envDemo 60000000000 0 [(⟨120000000000⟩, floatOne), (⟨0⟩, floatOne)] ≠
      List.intersperse ","
        (([(⟨120000000000⟩, floatOne), (⟨0⟩, floatOne)].filter
          (fun p => decide (0 < pointTs 60000000000 p.1))).map
            (pointEntry envDemo 60000000000)) := by
  decide

set_option maxRecDepth 8000 in
/-- Claim C20 as stated fails: the series with the times `time.Unix(-2^63, 0)`
and `time.Unix(0, 0)` and a step of 60 seconds does not decrease, but the
seconds of the first time less the step do not fit the `int64` that `Unix`
returns: the first point is written with the timestamp 9223372036854775748,
the second is dropped and leaves its comma behind; the dropped points are
the first `k` for no `k`. -/
theorem renderPoints_sorted_times_overflow :
    List.Pairwise (fun p q : Time × Float64 => p.1.unixNano ≤ q.1.unixNano)
      [(Time.ofUnix (-9223372036854775808), floatOne), (Time.ofUnix 0, floatOne)] ∧
    (Time.ofUnix (-9223372036854775808)).Unix = -9223372036854775808 ∧
    (Time.ofUnix 0).Unix = 0 ∧
    pointTs 60000000000 (Time.ofUnix (-9223372036854775808)) = 9223372036854775748 ∧
    pointTs 60000000000 (Time.ofUnix 0) = -60 ∧
    String.join (renderPoints envDemo 60000000000 0
        [(Time.ofUnix (-9223372036854775808), floatOne), (Time.ofUnix 0, floatOne)]) =
      "[1, 9223372036854775748]," ∧
    ¬ ∃ k,
      (∀ p ∈ [(Time.ofUnix (-9223372036854775808), floatOne), (Time.ofUnix 0, floatOne)].take k,
        pointTs 60000000000 p.1 ≤ 0) ∧
      (∀ p ∈ [(Time.ofUnix (-9223372036854775808), floatOne), (Time.ofUnix 0, floatOne)].drop k,
        0 < pointTs 60000000000 p.1) := by
  refine ⟨by decide, by decide, by decide, by decide, by decide, by decide, ?_⟩
  rintro ⟨k, h1, h2⟩
  cases k with
  | zero =>
    have h := h2 (Time.ofUnix 0, floatOne) (by simp)
    revert h
    decide
  | succ k =>
    have h := h1 (Time.ofUnix (-9223372036854775808), floatOne) (by simp)
    revert h
    decide

/-- Claim C20, amended. For a series whose timestamps do not decrease, with
its fixed step, in which the seconds of every time and of every time less
the step fit an `int64` both counted from the Unix epoch and counted from
January 1 of year 1, the dropped points (timestamp less the step not
positive) are the first `k` points for some `k`, all later points are
written, and the text of the datapoints list is the entries of the written
points with one comma between two of them: no comma is left dangling. -/
theorem renderPoints_sorted_times_in_range (env : Env) (step : Duration)
    (pts : List (Time × Float64))
    (h : List.Pairwise (fun p q : Time × Float64 => p.1.unixNano ≤ q.1.unixNano) pts)
    (hr : ∀ p ∈ pts, p.1.inRange = true ∧
      (Time.mk (p.1.unixNano + wrapInt64 (-step))).inRange = true) :
    ∃ k, (∀ p ∈ pts.take k, pointTs step p.1 ≤ 0) ∧
      (∀ p ∈ pts.drop k, 0 < pointTs step p.1) ∧
      renderPoints env step 0 pts =
        List.intersperse "," ((pts.drop k).map (pointEntry env step)) := by
  induction pts with
  | nil => exact ⟨0, by simp, by simp, rfl⟩
  | cons p rest ih =>
    rw [List.pairwise_cons] at h
    have hp0 := hr p (List.mem_cons_self p rest)
    by_cases hp : 0 < pointTs step p.1
    · have hall : ∀ q ∈ p :: rest, 0 < pointTs step q.1 := by
        intro q hq
        rcases List.mem_cons.1 hq with rfl | hq
        · exact hp
        · have hq0 := hr q (List.mem_cons_of_mem p hq)
          exact lt_of_lt_of_le hp
            (pointTs_mono_of_inRange hp0.1 hp0.2 hq0.1 hq0.2 (h.1 q hq))
      exact ⟨0, by simp, hall,
        renderPoints_of_split env step [] (p :: rest) (fun _ hq => by cases hq) hall⟩
    · obtain ⟨k, h1, h2, h3⟩ := ih h.2 (fun q hq => hr q (List.mem_cons_of_mem p hq))
      refine ⟨k + 1, ?_, h2, ?_⟩
      · intro q hq
        rw [List.take_succ_cons] at hq
        rcases List.mem_cons.1 hq with rfl | hq
        · exact not_lt.1 hp
        · exact h1 q hq
      · rw [List.drop_succ_cons, ← h3]
        exact renderPoints_dropped env step [p] rest (fun q hq => by
          rw [List.mem_singleton.1 hq]; exact hp)

set_option maxRecDepth 8000 in
theorem renderPoints_sorted_times_in_range_witness :
    ∃ k, (∀ p ∈ [((⟨0⟩ : Time), floatOne), (⟨60000000000⟩, floatOne),
            (⟨120000000000⟩, floatOne), (⟨180000000000⟩, floatOne)].take k,
          pointTs 60000000000 p.1 ≤ 0) ∧
      (∀ p ∈ [((⟨0⟩ : Time), floatOne), (⟨60000000000⟩, floatOne),
            (⟨120000000000⟩, floatOne), (⟨180000000000⟩, floatOne)].drop k,
          0 < pointTs 60000000000 p.1) ∧
      renderPoints envDemo 60000000000 0
          [(⟨0⟩, floatOne), (⟨60000000000⟩, floatOne),
            (⟨120000000000⟩, floatOne), (⟨180000000000⟩, floatOne)] =
        List.intersperse ","
          (([((⟨0⟩ : Time), floatOne), (⟨60000000000⟩, floatOne),
            (⟨120000000000⟩, floatOne), (⟨180000000000⟩, floatOne)].drop k).map
              (pointEntry envDemo 60000000000)) :=
  renderPoints_sorted_times_in_range envDemo 60000000000 _ (by decide) (by decide)

set_option maxRecDepth 8000 in
/-- The body of the witness: the points at 0 and 60 seconds are dropped. -/
theorem renderPoints_sorted_times_example :
    String.join (renderPoints envDemo 60000000000 0
        [(⟨0⟩, floatOne), (⟨60000000000⟩, floatOne),
          (⟨120000000000⟩, floatOne), (⟨180000000000⟩, floatOne)]) =
      "[1, 60],[1, 120]" := by
  decide

/-! ## More on `quoteIdentifiers`: no dot, termination, what is inserted -/

theorem firstPart_none_of_no_dot {s : List Char} (h : '.' ∉ s) : firstPart s = none := by
  cases hf : firstPart s with
  | none => rfl
  | some P =>
    exfalso
    obtain ⟨p, b, q2, _, _, _, _, _, hpre, hdot⟩ := firstPart_scan hf
    apply h
    have h1 : '.' ∈ P := by
      unfold containsDot at hdot
      simpa using hdot
    exact List.mem_of_mem_drop (hpre.subset h1)

/-- Claim C17. An expression without a dot is returned unchanged by
`quoteIdentifiers`; so a name without a dot is never wrapped in quotes. -/
theorem quoteIdentifiers_no_dot (x : String) (h : '.' ∉ x.data) :
    quoteIdentifiers x = x := by
  unfold quoteIdentifiers
  rw [quoteIdentifiersChars_unfold, firstPart_none_of_no_dot h]

theorem quoteIdentifiers_no_dot_witness :
    quoteIdentifiers "sumSeries(cpu, mem-free)" = "sumSeries(cpu, mem-free)" :=
  quoteIdentifiers_no_dot "sumSeries(cpu, mem-free)" (by decide)

theorem quoteWeightAux_le (s : List Char) : ∀ q, quoteWeightAux q s ≤ 2 * s.length := by
  induction s with
  | nil => intro q; rw [quoteWeightAux_nil]; exact Nat.zero_le _
  | cons c cs ih =>
    intro q
    rw [quoteWeightAux_cons, List.length_cons]
    have := ih (nextQ q c)
    split <;> omega

/-- Claim C18. The recursion of `quoteIdentifiers` ends on every input: some
number of passes, at most one more than the weight of the target and so at
most one more than twice its length, brings out a result, every larger
number of passes brings out the same result, which is the value of
`quoteIdentifiers`, and the scan of the result finds no part that holds a
dot and does not begin with a double quote. -/
theorem quoteIdentifiers_terminates (target : List Char) :
    ∃ passes result,
      passes ≤ quoteWeight target + 1 ∧ quoteWeight target ≤ 2 * target.length ∧
      quoteIdentifiersFuel passes target = some result ∧
      (∀ more, passes ≤ more → quoteIdentifiersFuel more target = some result) ∧
      quoteIdentifiers (String.mk target) = String.mk result ∧
      ∀ part ∈ findAll result, containsDot part = false ∨ hasQuotePrefix part = true := by
  obtain ⟨r, hr, hnone⟩ :=
    quoteIdentifiersFuel_terminates (quoteWeight target + 1) target (by omega)
  refine ⟨quoteWeight target + 1, r, le_refl _, quoteWeightAux_le target 0, hr,
    fun more hm => quoteIdentifiersFuel_mono hr more hm, ?_, ?_⟩
  · unfold quoteIdentifiers
    rw [quoteIdentifiersChars_eq_of_fuel _ hr]
  · intro part hpart
    unfold firstPart at hnone
    have := List.find?_eq_none.1 hnone part hpart
    cases hd : containsDot part
    · left; rfl
    · right
      cases hq : hasQuotePrefix part
      · rw [hd, hq] at this; simp at this
      · rfl

theorem stripQuotes_append (u v : List Char) :
    stripQuotes (u ++ v) = stripQuotes u ++ stripQuotes v := by
  unfold stripQuotes; exact List.filter_append _ _

theorem stripQuotes_escapeChars (x : List Char) :
    stripQuotes (escapeChars x) = stripQuotes x := by
  induction x with
  | nil => rfl
  | cons c cs ih =>
    rw [escapeChars]
    by_cases hc : c = '"' ∨ c = '\\'
    · rw [if_pos hc]
      unfold stripQuotes at ih ⊢
      rw [List.filter_cons_of_neg (by decide), List.filter_cons, List.filter_cons, ih]
    · rw [if_neg hc]
      unfold stripQuotes at ih ⊢
      rw [List.filter_cons, List.filter_cons, ih]

theorem stripQuotes_goQuote (part : List Char) :
    stripQuotes (goQuote part) = stripQuotes part := by
  have h1 : stripQuotes ['"'] = [] := by decide
  have h2 : goQuote part = ['"'] ++ (escapeChars part ++ ['"']) := rfl
  rw [h2, stripQuotes_append, stripQuotes_append, stripQuotes_escapeChars, h1,
    List.nil_append, List.append_nil]

/-- Replacing a text by one that differs from it in double quotes and
backslashes only changes nothing else. -/
theorem stripQuotes_replaceAll {old new : List Char} (hold : old ≠ [])
    (hnew : stripQuotes new = stripQuotes old) :
    ∀ s : List Char, stripQuotes (replaceAll s old new) = stripQuotes s := by
  intro s
  generalize hn : s.length = n
  induction n using Nat.strong_induction_on generalizing s with
  | _ n ih =>
    cases s with
    | nil => rw [replaceAll_nil]
    | cons c cs =>
      by_cases hpre : old <+: (c :: cs)
      · obtain ⟨v, hv⟩ := hpre
        rw [← hv, replaceAll_append hold, stripQuotes_append, stripQuotes_append, hnew]
        have hlen : v.length < n := by
          rw [← hn, ← hv, List.length_append]
          have := List.length_pos.2 hold
          omega
        rw [ih v.length hlen v rfl]
      · rw [replaceAll_cons hpre]
        have hlen : cs.length < n := by rw [← hn]; simp
        have := ih cs.length hlen cs rfl
        unfold stripQuotes at this ⊢
        rw [List.filter_cons, List.filter_cons, this]

theorem stripQuotes_fuel : ∀ (fuel : Nat) (s r : List Char),
    quoteIdentifiersFuel fuel s = some r → stripQuotes r = stripQuotes s := by
  intro fuel
  induction fuel with
  | zero => intro s r h; rw [quoteIdentifiersFuel] at h; cases h
  | succ fuel ih =>
    intro s r h
    rw [quoteIdentifiersFuel] at h
    cases hf : firstPart s with
    | none => rw [hf] at h; cases h; rfl
    | some P =>
      rw [hf] at h
      obtain ⟨p, b, q2, _, _, hb, hq2, hPb, _, _⟩ := firstPart_scan hf
      have hne : P ≠ [] := (hPb ▸ hb.partShape hq2).ne_nil
      rw [ih _ r h, stripQuotes_replaceAll hne (stripQuotes_goQuote P)]

/-- Claim C19. The function `quoteIdentifiers` only inserts double quotes and
backslashes: with every double quote and every backslash deleted, its
result and its input are the same text. -/
theorem quoteIdentifiers_inserts_only (e : String) :
    stripQuotes (quoteIdentifiers e).data = stripQuotes e.data := by
  obtain ⟨r, hr, _⟩ :=
    quoteIdentifiersFuel_terminates (quoteWeight e.data + 1) e.data (by omega)
  unfold quoteIdentifiers
  rw [quoteIdentifiersChars_eq_of_fuel _ hr]
  exact stripQuotes_fuel _ _ _ hr

end Graphite
